import Mathlib

/-!
Verification of the crypto-tester repository's secret-sharing and key-storage
core.  The JavaScript sources are shallowly embedded: `ImprovedCrypto` models
`src/services/improved-crypto.js` (the module the application uses) and
`TestJs` models `src/test.js` (the self-test implementation).  JavaScript
numbers in the byte domain are modelled as `Nat`, exceptions as `Except JsErr`,
strings as `List Char`, and the ambient random source as an explicit argument.
-/

set_option maxRecDepth 4000

/-! ### Nat bit-manipulation toolkit -/

/-- A mask by a single bit `2^s` is either `0` or `2^s`, according to the bit. -/
theorem and_two_pow_ite (x s : Nat) : x &&& 2 ^ s = if x.testBit s then 2 ^ s else 0 := by
  apply Nat.eq_of_testBit_eq
  intro i
  by_cases h : x.testBit s
  · simp only [h, if_true, Nat.testBit_and, Nat.testBit_two_pow]
    by_cases hi : s = i
    · subst hi; simp [h]
    · simp [hi]
  · simp only [h, if_false, Nat.testBit_and, Nat.testBit_two_pow, Nat.zero_testBit]
    by_cases hi : s = i
    · subst hi; simp [h]
    · simp [hi]

/-- Testing a single-bit mask for zero is testing the bit. -/
theorem and_two_pow_ne_zero_iff (x s : Nat) : x &&& 2 ^ s ≠ 0 ↔ x.testBit s = true := by
  rw [and_two_pow_ite]
  have hp : (2 : Nat) ^ s ≠ 0 := Nat.pos_iff_ne_zero.mp (Nat.pos_pow_of_pos s (by omega))
  by_cases h : x.testBit s <;> simp [h, hp]

/-- Left shift distributes over `xor`. -/
theorem shiftLeft_xor_distrib (x y n : Nat) : (x ^^^ y) <<< n = x <<< n ^^^ y <<< n := by
  apply Nat.eq_of_testBit_eq
  intro i
  simp only [Nat.testBit_shiftLeft, Nat.testBit_xor]
  by_cases h : n ≤ i <;> simp [h]

/-- Right shift distributes over `xor`. -/
theorem shiftRight_xor_distrib (x y n : Nat) : (x ^^^ y) >>> n = x >>> n ^^^ y >>> n := by
  apply Nat.eq_of_testBit_eq
  intro i
  simp [Nat.testBit_shiftRight, Nat.testBit_xor]

/-- Xor with the low bit set is the successor of an even number. -/
theorem two_mul_xor_one (k : Nat) : 2 * k ^^^ 1 = 2 * k + 1 := by
  apply Nat.eq_of_testBit_eq
  intro i
  cases i with
  | zero =>
      simp only [Nat.testBit_xor, Nat.testBit_zero]
      have h1 : 2 * k % 2 = 0 := Nat.mul_mod_right 2 k
      have h2 : (2 * k + 1) % 2 = 1 := by omega
      simp [h1, h2]
  | succ i =>
      have h1 : Nat.testBit 1 (i + 1) = false :=
        Nat.testBit_eq_false_of_lt (by have := Nat.one_lt_two_pow_iff (n := i + 1); omega)
      rw [Nat.testBit_xor, h1, Nat.testBit_add_one, Nat.testBit_add_one]
      have h2 : 2 * k / 2 = k := by omega
      have h3 : (2 * k + 1) / 2 = k := by omega
      simp [h2, h3]

/-- Binary decomposition of a natural number as an `xor` of disjoint parts. -/
theorem two_mul_div_xor_mod (a : Nat) : 2 * (a / 2) ^^^ a % 2 = a := by
  rcases Nat.mod_two_eq_zero_or_one a with h | h
  · rw [h, Nat.xor_zero]; omega
  · rw [h, two_mul_xor_one]; omega

namespace ImprovedCrypto

/-! ### GF(256) primitives of `improved-crypto.js` (`gf256`) -/

/-- One doubling step of `gf256.mul`: shift left, mask to a byte, and fold the
overflow back with `0x1b` when the top bit of `a` was set (reduction by
`x^8+x^4+x^3+x+1`). -/
def xtime (a : Nat) : Nat :=
  if a &&& 0x80 ≠ 0 then ((a <<< 1) &&& 0xff) ^^^ 0x1b else (a <<< 1) &&& 0xff

/-- The 8-iteration Russian-peasant loop of `gf256.mul`, with loop counter,
current `a`, remaining `b` and accumulator `p`. -/
def mulGo : Nat → Nat → Nat → Nat → Nat
  | 0, _, _, p => p
  | n + 1, a, b, p => mulGo n (xtime a) (b >>> 1) (if b &&& 1 = 1 then p ^^^ a else p)

/-- Model of `gf256.mul` from `improved-crypto.js` (no input masking, exactly 8 rounds). -/
def mul (a b : Nat) : Nat := mulGo 8 a b 0

/-- The precomputed inverse table embedded in `gf256.div`. -/
def inverseTable : List Nat :=
  [0x00, 0x01, 0x8d, 0xf6, 0xcb, 0x52, 0x7b, 0xd1, 0xe8, 0x4f, 0x29, 0xc0, 0xb0, 0xe1, 0xe5, 0xc7,
   0x74, 0xb4, 0xaa, 0x4b, 0x99, 0x2b, 0x60, 0x5f, 0x58, 0x3f, 0xfd, 0xcc, 0xff, 0x40, 0xee, 0xb2,
   0x3a, 0x6e, 0x5a, 0xf1, 0x55, 0x4d, 0xa8, 0xc9, 0xc1, 0x0a, 0x98, 0x15, 0x30, 0x44, 0xa2, 0xc2,
   0x2c, 0x45, 0x92, 0x6c, 0xf3, 0x39, 0x66, 0x42, 0xf2, 0x35, 0x20, 0x6f, 0x77, 0xbb, 0x59, 0x19,
   0x1d, 0xfe, 0x37, 0x67, 0x2d, 0x31, 0xf5, 0x69, 0xa7, 0x64, 0xab, 0x13, 0x54, 0x25, 0xe9, 0x09,
   0xed, 0x5c, 0x05, 0xca, 0x4c, 0x24, 0x87, 0xbf, 0x18, 0x3e, 0x22, 0xf0, 0x51, 0xec, 0x61, 0x17,
   0x16, 0x5e, 0xaf, 0xd3, 0x49, 0xa6, 0x36, 0x43, 0xf4, 0x47, 0x91, 0xdf, 0x33, 0x93, 0x21, 0x3b,
   0x79, 0xb7, 0x97, 0x85, 0x10, 0xb5, 0xba, 0x3c, 0xb6, 0x70, 0xd0, 0x06, 0xa1, 0xfa, 0x81, 0x82,
   0x83, 0x7e, 0x7f, 0x80, 0x96, 0x73, 0xbe, 0x56, 0x9b, 0x9e, 0x95, 0xd9, 0xf7, 0x02, 0xb9, 0xa4,
   0xde, 0x6a, 0x32, 0x6d, 0xd8, 0x8a, 0x84, 0x72, 0x2a, 0x14, 0x9f, 0x88, 0xf9, 0xdc, 0x89, 0x9a,
   0xfb, 0x7c, 0x2e, 0xc3, 0x8f, 0xb8, 0x65, 0x48, 0x26, 0xc8, 0x12, 0x4a, 0xce, 0xe7, 0xd2, 0x62,
   0x0c, 0xe0, 0x1f, 0xef, 0x11, 0x75, 0x78, 0x71, 0xa5, 0x8e, 0x76, 0x3d, 0xbd, 0xbc, 0x86, 0x57,
   0x0b, 0x28, 0x2f, 0xa3, 0xda, 0xd4, 0xe4, 0x0f, 0xa9, 0x27, 0x53, 0x04, 0x1b, 0xfc, 0xac, 0xe6,
   0x7a, 0x07, 0xae, 0x63, 0xc5, 0xdb, 0xe2, 0xea, 0x94, 0x8b, 0xc4, 0xd5, 0x9d, 0xf8, 0x90, 0x6b,
   0xb1, 0x0d, 0xd6, 0xeb, 0xc6, 0x0e, 0xcf, 0xad, 0x08, 0x4e, 0xd7, 0xe3, 0x5d, 0x50, 0x1e, 0xb3,
   0x5b, 0x23, 0x38, 0x34, 0x68, 0x46, 0x03, 0x8c, 0xdd, 0x9c, 0x7d, 0xa0, 0xcd, 0x1a, 0x41, 0x1c]

end ImprovedCrypto

/-- The exception kinds thrown by the embedded JavaScript functions. -/
inductive JsErr where
  /-- `'しきい値は2以上である必要があります'` in `createShares`. -/
  | validationThreshold
  /-- `'総シェア数はしきい値以上である必要があります'` in `createShares`. -/
  | validationTotalShares
  /-- `'不正なシェア形式です'` in `combineShares`. -/
  | badShareFormat
  /-- `'0で割ることはできません'` / `'0による除算はできません'` in the two `div`s. -/
  | divisionByZero
  /-- `'重複するx座標'` in the test implementation's interpolation. -/
  | duplicateX
  /-- `'ポイントが必要です'` in the test implementation's interpolation. -/
  | emptyPoints
  /-- `'0の逆元は存在しません'` in `GF256.inverse`. -/
  | zeroInverse
  /-- `'多項式は可逆ではありません'` in `GF256.inverse`. -/
  | notInvertible
  /-- `'0による多項式除算はできません'` in `GF256.polyDiv`. -/
  | polyDivZero
  /-- `'シェアのバイト長が一致しません'` in the test `combineShares`. -/
  | lengthMismatch
  /-- Accessing a property of `undefined` (e.g. `shares[0]` on an empty array). -/
  | typeError
  /-- Marker for exhausted loop fuel; unreachable for byte-sized inputs. -/
  | loopLimit
  deriving DecidableEq, Repr

namespace ImprovedCrypto

/-- Model of `gf256.div`: table-based division, failing on a zero divisor. -/
def div (a b : Nat) : Except JsErr Nat :=
  if b = 0 then .error .divisionByZero
  else if a = 0 then .ok 0
  else .ok (mul a (inverseTable.getD b 0))

end ImprovedCrypto

/-! ### Algebraic facts about `gf256.mul`, proved structurally -/

/-- Rearrangement of a four-fold `xor`. -/
theorem xor_mix (a b c d : Nat) : (a ^^^ b) ^^^ (c ^^^ d) = (a ^^^ c) ^^^ (b ^^^ d) := by
  rw [Nat.xor_assoc, Nat.xor_assoc]
  congr 1
  rw [← Nat.xor_assoc, ← Nat.xor_assoc]
  congr 1
  exact Nat.xor_comm b c

/-- Cancelling a shared `xor` operand. -/
theorem xor_cancel_shared (a b c : Nat) : (a ^^^ c) ^^^ (b ^^^ c) = a ^^^ b := by
  rw [xor_mix, Nat.xor_self, Nat.xor_zero]

namespace ImprovedCrypto

theorem xtime_zero : xtime 0 = 0 := by decide

theorem xtime_lt (a : Nat) : xtime a < 256 := by
  have h1 : (a <<< 1) &&& 0xff < 256 := Nat.lt_of_le_of_lt Nat.and_le_right (by norm_num)
  unfold xtime
  split
  · exact Nat.xor_lt_two_pow (n := 8) (by norm_num at h1 ⊢; omega) (by norm_num)
  · exact h1

/-- The function `xtime` written as an unconditional `xor` with a bit-controlled constant. -/
theorem xtime_eq_ite (a : Nat) :
    xtime a = ((a <<< 1) &&& 0xff) ^^^ (if a.testBit 7 then 0x1b else 0) := by
  unfold xtime
  have h : a &&& 0x80 ≠ 0 ↔ a.testBit 7 = true := by
    have := and_two_pow_ne_zero_iff a 7
    norm_num at this
    exact this
  by_cases hb : a.testBit 7
  · rw [if_pos (h.mpr hb), if_pos hb]
  · rw [if_neg fun hc => hb (h.mp hc), if_neg hb, Nat.xor_zero]

/-- The function `xtime` is linear over `xor` (it is a GF(2)-linear map on bit vectors). -/
theorem xtime_linear (x y : Nat) : xtime (x ^^^ y) = xtime x ^^^ xtime y := by
  rw [xtime_eq_ite, xtime_eq_ite, xtime_eq_ite, shiftLeft_xor_distrib,
    Nat.and_xor_distrib_right, Nat.testBit_xor]
  rcases hx : x.testBit 7 <;> rcases hy : y.testBit 7 <;>
    simp only [Bool.xor_false, Bool.xor_true, Bool.not_true, Bool.not_false,
      if_true, if_false] <;>
    rw [xor_mix] <;> simp

theorem mulGo_b_zero (n : Nat) : ∀ a p, mulGo n a 0 p = p := by
  induction n with
  | zero => intro a p; rfl
  | succ n ih =>
      intro a p
      rw [mulGo]
      simp only [Nat.zero_and, Nat.zero_shiftRight]
      exact ih (xtime a) p

theorem mulGo_a_zero (n : Nat) : ∀ b p, mulGo n 0 b p = p := by
  induction n with
  | zero => intro b p; rfl
  | succ n ih =>
      intro b p
      rw [mulGo, xtime_zero]
      rcases h : b &&& 1 with _ | m <;> simp [h, ih]

/-- The accumulator of the multiplication loop is a pure `xor` accumulator. -/
theorem mulGo_acc (n : Nat) : ∀ a b p, mulGo n a b p = p ^^^ mulGo n a b 0 := by
  induction n with
  | zero => intro a b p; simp [mulGo]
  | succ n ih =>
      intro a b p
      rw [mulGo, mulGo]
      by_cases h : b &&& 1 = 1
      · rw [if_pos h, if_pos h, ih (xtime a) (b >>> 1) (p ^^^ a),
          ih (xtime a) (b >>> 1) (0 ^^^ a), Nat.zero_xor, Nat.xor_assoc]
      · rw [if_neg h, if_neg h, ih (xtime a) (b >>> 1) p]

/-- One unfolding of the loop in accumulator-free form. -/
theorem mulGo_step (n a b : Nat) :
    mulGo (n + 1) a b 0 =
      (if b &&& 1 = 1 then a else 0) ^^^ mulGo n (xtime a) (b >>> 1) 0 := by
  rw [mulGo]
  by_cases h : b &&& 1 = 1
  · rw [if_pos h, if_pos h, Nat.zero_xor, mulGo_acc]
  · rw [if_neg h, if_neg h, Nat.zero_xor]

/-- The loop is linear in its second (multiplier) argument. -/
theorem mulGo_b_xor (n : Nat) : ∀ a b c,
    mulGo n a (b ^^^ c) 0 = mulGo n a b 0 ^^^ mulGo n a c 0 := by
  induction n with
  | zero => intro a b c; simp [mulGo]
  | succ n ih =>
      intro a b c
      rw [mulGo_step, mulGo_step, mulGo_step, shiftRight_xor_distrib, ih, xor_mix,
        Nat.and_xor_distrib_right]
      congr 1
      rcases Nat.mod_two_eq_zero_or_one b with hb | hb <;>
        rcases Nat.mod_two_eq_zero_or_one c with hc | hc <;>
        simp [Nat.and_one_is_mod, hb, hc]

/-- The loop is linear in its first (multiplicand) argument. -/
theorem mulGo_a_xor (n : Nat) : ∀ a₁ a₂ b,
    mulGo n (a₁ ^^^ a₂) b 0 = mulGo n a₁ b 0 ^^^ mulGo n a₂ b 0 := by
  induction n with
  | zero => intro a₁ a₂ b; simp [mulGo]
  | succ n ih =>
      intro a₁ a₂ b
      rw [mulGo_step, mulGo_step, mulGo_step, xtime_linear, ih, xor_mix]
      congr 1
      rcases Nat.mod_two_eq_zero_or_one b with hb | hb <;> simp [Nat.and_one_is_mod, hb]

/-- Multiplying the doubled (reduced) multiplicand doubles the product. -/
theorem mulGo_xtime (n : Nat) : ∀ a b,
    mulGo n (xtime a) b 0 = xtime (mulGo n a b 0) := by
  induction n with
  | zero => intro a b; simp [mulGo, xtime_zero]
  | succ n ih =>
      intro a b
      rw [mulGo_step, mulGo_step, ih (xtime a) (b >>> 1), xtime_linear]
      congr 1
      rcases Nat.mod_two_eq_zero_or_one b with hb | hb <;>
        simp [Nat.and_one_is_mod, hb, xtime_zero]

/-- A doubled multiplier feeds the loop shifted by one round. -/
theorem mulGo_b_double (n a c : Nat) :
    mulGo (n + 1) a (2 * c) 0 = mulGo n (xtime a) c 0 := by
  rw [mulGo_step]
  have h1 : (2 * c) &&& 1 = 0 := by rw [Nat.and_one_is_mod]; omega
  have h2 : (2 * c) >>> 1 = c := by
    rw [Nat.shiftRight_succ, Nat.shiftRight_zero]; omega
  rw [h1, h2]
  simp

/-- An extra loop round is a no-op once the multiplier bits are exhausted. -/
theorem mulGo_fuel (n : Nat) : ∀ a b p, b < 2 ^ n → mulGo (n + 1) a b p = mulGo n a b p := by
  induction n with
  | zero =>
      intro a b p hb
      interval_cases b
      rw [mulGo]
      simp [mulGo]
  | succ n ih =>
      intro a b p hb
      conv_lhs => rw [mulGo]
      conv_rhs => rw [mulGo]
      apply ih
      have hdiv : b >>> 1 = b / 2 := by rw [Nat.shiftRight_succ, Nat.shiftRight_zero]
      rw [hdiv]
      have := Nat.pow_succ 2 n
      omega

/-- The loop keeps byte-sized state byte-sized. -/
theorem mulGo_lt (n : Nat) : ∀ a b p, a < 256 → p < 256 → mulGo n a b p < 256 := by
  induction n with
  | zero => intro a b p _ hp; exact hp
  | succ n ih =>
      intro a b p ha hp
      rw [mulGo]
      apply ih _ _ _ (xtime_lt a)
      by_cases h : b &&& 1 = 1
      · rw [if_pos h]
        exact Nat.xor_lt_two_pow (n := 8) (by norm_num; omega) (by norm_num; omega)
      · rw [if_neg h]; exact hp

theorem mul_b_zero (a : Nat) : mul a 0 = 0 := mulGo_b_zero 8 a 0

theorem mul_a_zero (b : Nat) : mul 0 b = 0 := mulGo_a_zero 8 b 0

theorem mul_lt (a b : Nat) (ha : a < 256) : mul a b < 256 := mulGo_lt 8 a b 0 ha (by omega)

theorem mul_a_xor (a₁ a₂ b : Nat) : mul (a₁ ^^^ a₂) b = mul a₁ b ^^^ mul a₂ b :=
  mulGo_a_xor 8 a₁ a₂ b

theorem mul_b_xor (a b c : Nat) : mul a (b ^^^ c) = mul a b ^^^ mul a c :=
  mulGo_b_xor 8 a b c

theorem mul_xtime_left (a b : Nat) : mul (xtime a) b = xtime (mul a b) := mulGo_xtime 8 a b

theorem xtime_of_lt_128 (c : Nat) (hc : c < 128) : xtime c = 2 * c := by
  have hbit : c.testBit 7 = false := Nat.testBit_eq_false_of_lt (by norm_num; omega)
  rw [xtime_eq_ite, hbit, if_neg (by simp), Nat.xor_zero, Nat.shiftLeft_eq,
    Nat.and_pow_two_sub_one_of_lt_two_pow (n := 8) (by norm_num; omega)]
  omega

theorem mul_double_left (c b : Nat) (hc : c < 128) : mul (2 * c) b = xtime (mul c b) := by
  rw [← xtime_of_lt_128 c hc, mul_xtime_left]

theorem mul_double_right (b c : Nat) (hc : c < 128) : mul b (2 * c) = xtime (mul b c) := by
  show mulGo 8 b (2 * c) 0 = xtime (mulGo 8 b c 0)
  rw [mulGo_b_double 7 b c, mulGo_xtime 7 b c, mulGo_fuel 7 b c 0 (by norm_num; omega)]

theorem mul_one_left : ∀ b : Fin 256, mul 1 b.val = b.val := by decide

theorem mul_one_right : ∀ b : Fin 256, mul b.val 1 = b.val := by decide

theorem mul_one_left' (b : Nat) (hb : b < 256) : mul 1 b = b := mul_one_left ⟨b, hb⟩

theorem mul_one_right' (b : Nat) (hb : b < 256) : mul b 1 = b := mul_one_right ⟨b, hb⟩

/-- The loop `gf256.mul` is commutative on bytes. -/
theorem mul_comm_lt : ∀ a, a < 256 → ∀ b, b < 256 → mul a b = mul b a := by
  intro a
  induction a using Nat.strong_induction_on with
  | _ a IH =>
    intro ha b hb
    match a, ha with
    | 0, _ => rw [mul_a_zero, mul_b_zero]
    | 1, _ => rw [mul_one_left' b hb, mul_one_right' b hb]
    | (m + 2), ha =>
      set a := m + 2 with hadef
      have hdecomp : 2 * (a / 2) ^^^ a % 2 = a := two_mul_div_xor_mod a
      have hq2 : a / 2 < a := by omega
      have hq128 : a / 2 < 128 := by omega
      have hdouble : mul (2 * (a / 2)) b = mul b (2 * (a / 2)) := by
        rw [mul_double_left _ _ hq128, mul_double_right _ _ hq128,
          IH (a / 2) hq2 (by omega) b hb]
      calc mul a b = mul (2 * (a / 2) ^^^ a % 2) b := by rw [hdecomp]
        _ = mul (2 * (a / 2)) b ^^^ mul (a % 2) b := mul_a_xor _ _ _
        _ = mul b (2 * (a / 2)) ^^^ mul b (a % 2) := by
            rw [hdouble]
            congr 1
            rcases Nat.mod_two_eq_zero_or_one a with h | h
            · rw [h, mul_a_zero, mul_b_zero]
            · rw [h, mul_one_left' b hb, mul_one_right' b hb]
        _ = mul b (2 * (a / 2) ^^^ a % 2) := (mul_b_xor _ _ _).symm
        _ = mul b a := by rw [hdecomp]

/-- The loop `gf256.mul` is associative on bytes. -/
theorem mul_assoc_lt : ∀ a, a < 256 → ∀ b c, b < 256 → c < 256 →
    mul (mul a b) c = mul a (mul b c) := by
  intro a
  induction a using Nat.strong_induction_on with
  | _ a IH =>
    intro ha b c hb hc
    match a, ha with
    | 0, _ => rw [mul_a_zero, mul_a_zero, mul_a_zero]
    | 1, _ => rw [mul_one_left' b hb, mul_one_left' (mul b c) (mul_lt b c hb)]
    | (m + 2), ha =>
      set a := m + 2 with hadef
      have hdecomp : 2 * (a / 2) ^^^ a % 2 = a := two_mul_div_xor_mod a
      have hq2 : a / 2 < a := by omega
      have hq128 : a / 2 < 128 := by omega
      have hdouble : mul (mul (2 * (a / 2)) b) c = mul (2 * (a / 2)) (mul b c) := by
        rw [mul_double_left _ _ hq128, mul_xtime_left,
          IH (a / 2) hq2 (by omega) b c hb hc, ← mul_double_left _ _ hq128]
      have hbase : mul (mul (a % 2) b) c = mul (a % 2) (mul b c) := by
        rcases Nat.mod_two_eq_zero_or_one a with h | h
        · rw [h, mul_a_zero, mul_a_zero, mul_a_zero]
        · rw [h, mul_one_left' b hb, mul_one_left' (mul b c) (mul_lt b c hb)]
      calc mul (mul a b) c
          = mul (mul (2 * (a / 2) ^^^ a % 2) b) c := by rw [hdecomp]
        _ = mul (mul (2 * (a / 2)) b ^^^ mul (a % 2) b) c := by rw [mul_a_xor]
        _ = mul (mul (2 * (a / 2)) b) c ^^^ mul (mul (a % 2) b) c := mul_a_xor _ _ _
        _ = mul (2 * (a / 2)) (mul b c) ^^^ mul (a % 2) (mul b c) := by
            rw [hdouble, hbase]
        _ = mul (2 * (a / 2) ^^^ a % 2) (mul b c) := (mul_a_xor _ _ _).symm
        _ = mul a (mul b c) := by rw [hdecomp]

/-- Every entry of the inverse table is a byte. -/
theorem inverseTable_lt : ∀ a : Fin 256, inverseTable.getD a.val 0 < 256 := by decide

/-- The inverse table sends nonzero bytes to nonzero bytes. -/
theorem inverseTable_ne_zero : ∀ a : Fin 256, a.val ≠ 0 → inverseTable.getD a.val 0 ≠ 0 := by
  decide

/-- The inverse table really inverts: `a · table[a] = 1` for nonzero `a`. -/
theorem mul_inverseTable : ∀ a : Fin 256, a.val ≠ 0 →
    mul a.val (inverseTable.getD a.val 0) = 1 := by decide

end ImprovedCrypto

/-! ### Hex strings and JavaScript number parsing

JavaScript strings are modelled as `List Char`.  `parseInt(s, 16)` is modelled
for strings of hex digits (its whitespace/sign/`0x` handling is not modelled:
no verified statement reaches those inputs), with `none` standing for `NaN`.
`NaN` flows into the decoded share's `x` only through JavaScript bitwise
operators and `gf256.mul`, all of which coerce it to `0`, so a `NaN` result is
stored as `0`. -/

/-- The lowercase hex digit for a value below 16 (`Number.prototype.toString(16)`). -/
def hexDigitChar (d : Nat) : Char := "0123456789abcdef".toList.getD d '0'

/-- Digit-extraction loop of `Number.prototype.toString(16)` (fuel-bounded). -/
def natToHexGo : Nat → Nat → List Char → List Char
  | 0, _, acc => acc
  | fuel + 1, n, acc =>
      if n = 0 then acc else natToHexGo fuel (n / 16) (hexDigitChar (n % 16) :: acc)

/-- Model of `n.toString(16)` for a natural number `n`. -/
def natToHex (n : Nat) : List Char := if n = 0 then ['0'] else natToHexGo 16 n []

/-- Model of `String.prototype.padStart(2, '0')`. -/
def padStart2 (l : List Char) : List Char :=
  if l.length < 2 then List.replicate (2 - l.length) '0' ++ l else l

/-- The numeric value of one hex digit character, `none` for a non-digit. -/
def hexCharVal (c : Char) : Option Nat :=
  if '0' ≤ c ∧ c ≤ '9' then some (c.toNat - '0'.toNat)
  else if 'a' ≤ c ∧ c ≤ 'f' then some (c.toNat - 'a'.toNat + 10)
  else if 'A' ≤ c ∧ c ≤ 'F' then some (c.toNat - 'A'.toNat + 10)
  else none

/-- Accumulating loop of `parseInt(_, 16)`: consume hex digits, stop at the
first non-digit. -/
def jsParseHexGo : List Char → Nat → Nat
  | [], acc => acc
  | c :: rest, acc =>
      match hexCharVal c with
      | none => acc
      | some v => jsParseHexGo rest (16 * acc + v)

/-- Model of `parseInt(s, 16)`: `none` (`NaN`) when the string starts with a non-digit. -/
def jsParseHexLead : List Char → Option Nat
  | [] => none
  | c :: rest =>
      match hexCharVal c with
      | none => none
      | some v => some (jsParseHexGo rest v)

/-- The chunks produced by `hex.match(/.{1,2}/g)`. -/
def chunkPairs : List Char → List (List Char)
  | c1 :: c2 :: rest => [c1, c2] :: chunkPairs rest
  | [c] => [[c]]
  | [] => []

namespace ImprovedCrypto

/-! ### Share codec and the splitting / reconstruction engines of
`improved-crypto.js` -/

/-- Model of `bytesToHex`. -/
def bytesToHex (bytes : List Nat) : List Char :=
  (bytes.map (fun b => padStart2 (natToHex b))).flatten

/-- Model of `hexToBytes` of `improved-crypto.js`: an empty or odd-length string yields
the EMPTY byte array (no error); each chunk is parsed with `parseInt(_, 16)`
and coerced through `Uint8Array` (`NaN` becomes `0`). -/
def hexToBytes (hex : List Char) : List Nat :=
  if hex.length = 0 ∨ hex.length % 2 ≠ 0 then []
  else (chunkPairs hex).map (fun chunk => (jsParseHexLead chunk).getD 0)

/-- The body of the inner (`j`) loop of `lagrangeInterpolation`: skip `j = i`,
otherwise multiply `numerator` by `xj` and `denominator` by `xj ^ xi`. -/
def numDenStep (i xi : Nat) (nd : Nat × Nat) (jp : Nat × (Nat × Option Nat)) : Nat × Nat :=
  if jp.fst = i then nd
  else (mul nd.fst jp.snd.fst, mul nd.snd (jp.snd.fst ^^^ xi))

/-- The numerator/denominator accumulation of `lagrangeInterpolation`:
`numerator = Π_{j≠i} xj`, `denominator = Π_{j≠i} (xj ^ xi)`. -/
def lagrangeNumDen (points : List (Nat × Option Nat)) (i : Nat) (xi : Nat) : Nat × Nat :=
  points.enum.foldl (numDenStep i xi) (1, 1)

/-- The body of the outer (`i`) loop of `lagrangeInterpolation`: skip when
`yi === 0`, else `result ^= gf256.mul(yi, gf256.div(numerator, denominator))`. -/
def interpStep (points : List (Nat × Option Nat)) (result : Nat)
    (ip : Nat × (Nat × Option Nat)) : Except JsErr Nat :=
  if ip.snd.snd = some 0 then pure result
  else
    (div (lagrangeNumDen points ip.fst ip.snd.fst).fst
      (lagrangeNumDen points ip.fst ip.snd.fst).snd).map
      (fun q => result ^^^ mul (ip.snd.snd.getD 0) q)

/-- Model of `lagrangeInterpolation` of `improved-crypto.js`.  A point's `y` is
`Option Nat` because `combineShares` reads `share.y[byteIndex]`, which is
`undefined` past the end of the array; `undefined` is skipped by the
`yi === 0` test (which is false for it) but multiplies to `0` exactly like
`0` does, hence the `Option.getD 0`. -/
def lagrangeInterpolation (points : List (Nat × Option Nat)) : Except JsErr Nat :=
  points.enum.foldlM (interpStep points) 0

/-- A share as accepted by `combineShares`: either an object with `value` and
(optionally) `encoding`, or a bare string (modelled as `encoding := none`,
since reading `.encoding` off a string gives `undefined`). -/
structure ShareInput where
  value : List Char
  encoding : Option (List Char)
  deriving DecidableEq, Repr

/-- The decoded form of one share inside `combineShares`. -/
structure DecodedShare where
  x : Nat
  y : List Nat
  deriving DecidableEq, Repr

/-- The `'utf-8'` encoding tag. -/
def utf8Tag : List Char := ['u', 't', 'f', '-', '8']

/-- The per-share decode step of `combineShares`: check the `'80'` marker,
parse `x` from characters 2–3, and hex-decode the rest as `y`. -/
def decodeShare (v : List Char) : Except JsErr DecodedShare :=
  if v.take 2 = ['8', '0'] then
    .ok { x := (jsParseHexLead ((v.drop 2).take 2)).getD 0, y := hexToBytes (v.drop 4) }
  else .error .badShareFormat

/-- Model of `combineShares` of `improved-crypto.js`.  The trailing
`new TextDecoder(encoding).decode(result)` call is the platform text codec
(out of scope per the specification), so the function returns the encoding
tag it would pass to `TextDecoder` together with the reconstructed bytes.
An empty share array throws (`shares[0].encoding` on `undefined`). -/
def combineShares (shares : List ShareInput) : Except JsErr (List Char × List Nat) :=
  match shares with
  | [] => .error .typeError
  | s0 :: _ => do
      let encoding := s0.encoding.getD utf8Tag
      let decoded ← shares.mapM (fun s => decodeShare s.value)
      let secretLength := (decoded.headD ⟨0, []⟩).y.length
      let result ← (List.range secretLength).mapM (fun byteIndex =>
        lagrangeInterpolation (decoded.map (fun d => (d.x, d.y.get? byteIndex))))
      pure (encoding, result)

/-- Model of `evaluatePolynomial`: Horner iteration starting from `coeffs[0]`.
Note this makes `coeffs[0]` the HIGHEST-degree coefficient: the computed value
is `coeffs[0]·x^(t-1) + coeffs[1]·x^(t-2) + ... + coeffs[t-1]`. -/
def evaluatePolynomial (coeffs : List Nat) (x : Nat) : Nat :=
  match coeffs with
  | [] => 0
  | c0 :: rest => rest.foldl (fun result c => mul result x ^^^ c) c0

/-- A share under construction inside `createShares` (`{x, y}`). -/
structure RawShare where
  x : Nat
  y : List Nat
  deriving DecidableEq, Repr

/-- The nested share-building loops of `createShares`: for each byte position,
draw the random coefficients (`crypto.getRandomValues`, modelled by the
injected `rand`, masked to bytes as `Uint8Array` guarantees), then append each
participant's polynomial evaluation to its share. -/
def buildRawShares (secretBytes : List Nat) (totalShares threshold : Nat)
    (rand : Nat → Nat → Nat) : List RawShare :=
  (List.range secretBytes.length).foldl
    (fun shares byteIndex =>
      let coeffs := secretBytes.getD byteIndex 0 ::
        (List.range (threshold - 1)).map (fun j => rand byteIndex j % 256)
      (List.range totalShares).foldl
        (fun shares' k =>
          let x := k + 1
          let y := evaluatePolynomial coeffs x
          if shares'.length ≤ k then shares' ++ [{ x := x, y := [y] }]
          else shares'.modify (fun old => { x := old.x, y := old.y ++ [y] }) k)
        shares)
    []

/-- Model of `createShares` of `improved-crypto.js`.  The secret is taken after
`TextEncoder.encode` (the platform text codec), i.e. as its byte sequence; the
random `uuid` id is not modelled (no verified operation reads it).  Note the
validations: only `threshold < 2` and `totalShares < threshold` are checked. -/
def createShares (secretBytes : List Nat) (totalShares threshold : Nat)
    (rand : Nat → Nat → Nat) : Except JsErr (List ShareInput) :=
  if threshold < 2 then .error .validationThreshold
  else if totalShares < threshold then .error .validationTotalShares
  else
    .ok ((buildRawShares secretBytes totalShares threshold rand).map (fun share =>
      { value := '8' :: '0' :: (padStart2 (natToHex share.x) ++ bytesToHex share.y),
        encoding := some utf8Tag }))

end ImprovedCrypto

namespace TestJs

/-! ### The `GF256` object and interpolation of `src/test.js` -/

/-- Model of `GF256.degree`: highest set bit among bits 0–31, `-1` for zero. -/
def degree (a : Nat) : Int :=
  (List.range 32).foldl (fun d i => if a &&& (1 <<< i) ≠ 0 then (i : Int) else d) (-1)

/-- The `while (a > 0)` loop of `GF256.polyMul` (fuel-bounded; 32 rounds cover
every 32-bit operand, far beyond the degree-≤9 polynomials it is fed). -/
def polyMulGo : Nat → Nat → Nat → Nat → Nat
  | 0, _, _, result => result
  | fuel + 1, a, b, result =>
      if a = 0 then result
      else polyMulGo fuel (a >>> 1) (b <<< 1) (if a &&& 1 = 1 then result ^^^ b else result)

/-- Model of `GF256.polyMul`: carry-less polynomial multiplication over GF(2). -/
def polyMul (a b : Nat) : Nat := polyMulGo 32 a b 0

/-- Model of `GF256.polyDiv`: polynomial long division over GF(2), returning the
quotient; the loop walks `i` from `degree a - degree b` down to `0`. -/
def polyDiv (a b : Nat) : Except JsErr Nat :=
  if b = 0 then .error .polyDivZero
  else
    let dd : Int := degree a - degree b
    if dd < 0 then .ok 0
    else
      let degB := (degree b).toNat
      .ok (((List.range (dd.toNat + 1)).reverse.foldl
        (fun ar i =>
          if ar.fst &&& (1 <<< (i + degB)) ≠ 0 then
            (ar.fst ^^^ (b <<< i), ar.snd ||| (1 <<< i))
          else ar)
        (a, 0)).snd)

/-- The `while (newr !== 0)` loop of `GF256.inverse`, with state
`(t, newt, r, newr)` (fuel-bounded; the degree of `newr` strictly drops, so 16
rounds cover every byte input). -/
def inverseGo : Nat → Nat → Nat → Nat → Nat → Except JsErr Nat
  | 0, _, _, _, _ => .error .loopLimit
  | fuel + 1, t, newt, r, newr =>
      if newr = 0 then
        if r > 1 then .error .notInvertible else .ok t
      else do
        let quotient ← polyDiv r newr
        inverseGo fuel newt (t ^^^ polyMul quotient newt) newr (r ^^^ polyMul quotient newr)

/-- Model of `GF256.inverse`: extended Euclidean algorithm over GF(2)-polynomials
modulo `0x11b`. -/
def inverse (a : Nat) : Except JsErr Nat :=
  if a = 0 then .error .zeroInverse
  else inverseGo 16 0 1 0x11b a

/-- Model of `GF256.mul` of `test.js`: masks both operands to 8 bits, returns `0` when
either masked operand is zero, then runs the same 8-round shift-and-xor loop
as `gf256.mul` (the loop bodies are textually identical up to the variable
name `temp_a`), so the loop is shared via `ImprovedCrypto.mulGo`. -/
def mul (a b : Nat) : Nat :=
  if a &&& 0xff = 0 ∨ b &&& 0xff = 0 then 0
  else ImprovedCrypto.mulGo 8 (a &&& 0xff) (b &&& 0xff) 0

/-- Model of `GF256.add`. -/
def add (a b : Nat) : Nat := a ^^^ b

/-- Model of `GF256.sub` (identical to `add` in characteristic two). -/
def sub (a b : Nat) : Nat := a ^^^ b

/-- Model of `GF256.div` of `test.js`: masks its operands, rejects a zero divisor,
short-circuits a zero dividend, and multiplies by the Euclid inverse. -/
def div (a b : Nat) : Except JsErr Nat :=
  if b &&& 0xff = 0 then .error .divisionByZero
  else if a &&& 0xff = 0 then .ok 0
  else (inverse (b &&& 0xff)).map (fun bInv => mul (a &&& 0xff) bInv)

/-- The body of the inner (`j`) loop of the test `lagrangeInterpolation`:
skip `j = i`, reject a duplicate `x`, and multiply the running basis by
`xj / (xi - xj)`. -/
def basisStep (i xi : Nat) (basis : Nat) (jp : Nat × (Nat × Nat)) : Except JsErr Nat :=
  if jp.fst = i then pure basis
  else if sub xi jp.snd.fst = 0 then .error .duplicateX
  else (div jp.snd.fst (sub xi jp.snd.fst)).map (fun term => mul basis term)

/-- The body of the outer (`i`) loop of the test `lagrangeInterpolation`:
compute the basis value `L_i(0)` and accumulate `yi * L_i(0)`. -/
def termStep (points : List (Nat × Nat)) (result : Nat)
    (ip : Nat × (Nat × Nat)) : Except JsErr Nat := do
  let basis ← points.enum.foldlM (basisStep ip.fst ip.snd.fst) 1
  pure (add result (mul ip.snd.snd basis))

/-- Model of `lagrangeInterpolation` of `test.js`: per-factor quotients
`(0 - xj)/(xi - xj) = xj/(xi ^ xj)` with an explicit duplicate-`x` check, and
no skipping of zero `y` values.  An empty point list is rejected. -/
def lagrangeInterpolation (points : List (Nat × Nat)) : Except JsErr Nat :=
  if points.length = 0 then .error .emptyPoints
  else points.enum.foldlM (termStep points) 0

end TestJs

/-! ### The specification's reference GF(256) product -/

/-- Splitting off the highest set bit is an `xor` splitting. -/
theorem two_pow_xor_of_lt {x h : Nat} (hx : x < 2 ^ h) : 2 ^ h ^^^ x = 2 ^ h + x := by
  apply Nat.eq_of_testBit_eq
  intro i
  rcases Nat.lt_trichotomy i h with hi | hi | hi
  · rw [Nat.testBit_xor, Nat.testBit_two_pow_of_ne (by omega),
      Nat.testBit_two_pow_add_gt hi, Bool.false_xor]
  · subst hi
    rw [Nat.testBit_xor, Nat.testBit_two_pow_self, Nat.testBit_two_pow_add_eq,
      Nat.testBit_eq_false_of_lt hx]
    rfl
  · have hlt : 2 ^ h + x < 2 ^ i := by
      calc 2 ^ h + x < 2 ^ h + 2 ^ h := by omega
        _ = 2 ^ (h + 1) := by rw [Nat.pow_succ]; omega
        _ ≤ 2 ^ i := Nat.pow_le_pow_right (by omega) (by omega)
    rw [Nat.testBit_xor, Nat.testBit_two_pow_of_ne (by omega),
      Nat.testBit_eq_false_of_lt (Nat.lt_of_lt_of_le hx
        (Nat.le_trans (Nat.le_add_right _ _) (Nat.le_of_lt hlt))),
      Nat.testBit_eq_false_of_lt hlt]
    rfl

/-- A conditional `xor` controlled by a single bit is GF(2)-linear. -/
theorem cond_xor_linear (m c x y : Nat) :
    (if (x ^^^ y) &&& 2 ^ m ≠ 0 then (x ^^^ y) ^^^ c else x ^^^ y) =
      (if x &&& 2 ^ m ≠ 0 then x ^^^ c else x) ^^^
        (if y &&& 2 ^ m ≠ 0 then y ^^^ c else y) := by
  have key : ∀ z A B : Nat, (if z &&& 2 ^ m ≠ 0 then A else B) =
      (if z.testBit m then A else B) := by
    intro z A B
    by_cases h : z.testBit m
    · rw [if_pos ((and_two_pow_ne_zero_iff z m).mpr h), if_pos h]
    · rw [if_neg (fun hc => h ((and_two_pow_ne_zero_iff z m).mp hc)), if_neg h]
  rw [key, key, key, Nat.testBit_xor]
  rcases hx : x.testBit m <;> rcases hy : y.testBit m
  · rw [if_neg (by decide), if_neg (by decide), if_neg (by decide)]
  · rw [if_pos (by decide), if_neg (by decide), if_pos (by decide), Nat.xor_assoc]
  · rw [if_pos (by decide), if_pos (by decide), if_neg (by decide), Nat.xor_assoc,
      Nat.xor_assoc, Nat.xor_comm y c]
  · rw [if_neg (by decide), if_pos (by decide), if_pos (by decide)]
    exact (xor_cancel_shared x y c).symm

/-- Two GF(2)-linear maps agreeing on the eight basis bits agree on all bytes. -/
theorem linear_eq_on_basis (f g : Nat → Nat)
    (hf : ∀ x y, f (x ^^^ y) = f x ^^^ f y) (hf0 : f 0 = 0)
    (hg : ∀ x y, g (x ^^^ y) = g x ^^^ g y) (hg0 : g 0 = 0)
    (hbasis : ∀ i, i < 8 → f (2 ^ i) = g (2 ^ i)) :
    ∀ b, b < 256 → f b = g b := by
  intro b
  induction b using Nat.strong_induction_on with
  | _ b IH =>
    intro hb
    rcases Nat.eq_zero_or_pos b with h0 | h0
    · rw [h0, hf0, hg0]
    · have hne : b ≠ 0 := by omega
      set h := Nat.log2 b with hh
      have hle : 2 ^ h ≤ b := Nat.log2_self_le hne
      have hlt : b < 2 ^ (h + 1) := Nat.lt_log2_self
      have h8 : h < 8 := by
        rw [hh, Nat.log2_lt hne]
        exact hb
      have hrest : b - 2 ^ h < 2 ^ h := by
        have := Nat.pow_succ 2 h
        omega
      have hsplit : b = 2 ^ h ^^^ (b - 2 ^ h) := by
        rw [two_pow_xor_of_lt hrest]
        omega
      have hrb : b - 2 ^ h < b := by
        have : 0 < 2 ^ h := Nat.pos_pow_of_pos h (by omega)
        omega
      calc f b = f (2 ^ h ^^^ (b - 2 ^ h)) := by rw [← hsplit]
        _ = f (2 ^ h) ^^^ f (b - 2 ^ h) := hf _ _
        _ = g (2 ^ h) ^^^ g (b - 2 ^ h) := by
            rw [hbasis h h8, IH (b - 2 ^ h) hrb (by omega)]
        _ = g (2 ^ h ^^^ (b - 2 ^ h)) := (hg _ _).symm
        _ = g b := by rw [← hsplit]

namespace GF256Ref

/-- The reference product of the specification, step one: carry-less
(polynomial) multiplication over GF(2), accumulating `b <<< i` for each set
bit `i` of the 8-bit multiplicand. -/
def clMulGo : Nat → Nat → Nat → Nat
  | 0, _, _ => 0
  | n + 1, a, b => (if a &&& 1 = 1 then b else 0) ^^^ clMulGo n (a >>> 1) (b <<< 1)

/-- Carry-less product of two bytes (a polynomial of degree < 15). -/
def clMul (a b : Nat) : Nat := clMulGo 8 a b

/-- One long-division step of the reduction modulo `0x11b`: clear bit `8 + k`
by subtracting (xoring) `0x11b <<< k` when it is set. -/
def polyModStep (k x : Nat) : Nat :=
  if x &&& (1 <<< (8 + k)) ≠ 0 then x ^^^ (0x11b <<< k) else x

/-- Reduction of a degree-<16 GF(2) polynomial modulo `x^8+x^4+x^3+x+1`,
processing bits 15 down to 8. -/
def polyModGo : Nat → Nat → Nat
  | 0, x => x
  | k + 1, x => polyModGo k (polyModStep k x)

/-- The specification's reference GF(256) product: carry-less polynomial
multiplication reduced modulo `x^8+x^4+x^3+x+1` (`0x11b`). -/
def mulRef (a b : Nat) : Nat := polyModGo 8 (clMul a b)

theorem clMulGo_b_zero (n : Nat) : ∀ a, clMulGo n a 0 = 0 := by
  induction n with
  | zero => intro a; rfl
  | succ n ih =>
      intro a
      rw [clMulGo]
      have h0 : (0 : Nat) <<< 1 = 0 := rfl
      rw [h0, ih]
      rcases Nat.mod_two_eq_zero_or_one a with h | h <;> simp [Nat.and_one_is_mod, h]

theorem clMulGo_b_xor (n : Nat) : ∀ a b c,
    clMulGo n a (b ^^^ c) = clMulGo n a b ^^^ clMulGo n a c := by
  induction n with
  | zero => intro a b c; simp [clMulGo]
  | succ n ih =>
      intro a b c
      rw [clMulGo, clMulGo, clMulGo, shiftLeft_xor_distrib, ih, xor_mix]
      congr 1
      rcases Nat.mod_two_eq_zero_or_one a with h | h <;> simp [Nat.and_one_is_mod, h]

theorem polyModStep_zero (k : Nat) : polyModStep k 0 = 0 := by
  unfold polyModStep
  simp

theorem polyModStep_xor (k x y : Nat) :
    polyModStep k (x ^^^ y) = polyModStep k x ^^^ polyModStep k y := by
  unfold polyModStep
  have h : (1 : Nat) <<< (8 + k) = 2 ^ (8 + k) := by
    rw [Nat.shiftLeft_eq, Nat.one_mul]
  rw [h]
  exact cond_xor_linear (8 + k) (0x11b <<< k) x y

theorem polyModGo_zero (n : Nat) : polyModGo n 0 = 0 := by
  induction n with
  | zero => rfl
  | succ n ih => rw [polyModGo, polyModStep_zero, ih]

theorem polyModGo_xor (n : Nat) : ∀ x y,
    polyModGo n (x ^^^ y) = polyModGo n x ^^^ polyModGo n y := by
  induction n with
  | zero => intro x y; rfl
  | succ n ih =>
      intro x y
      rw [polyModGo, polyModStep_xor, ih]
      conv_rhs => rw [polyModGo, polyModGo]

theorem mulRef_b_zero (a : Nat) : mulRef a 0 = 0 := by
  unfold mulRef clMul
  rw [clMulGo_b_zero, polyModGo_zero]

theorem mulRef_b_xor (a b c : Nat) : mulRef a (b ^^^ c) = mulRef a b ^^^ mulRef a c := by
  unfold mulRef clMul
  rw [clMulGo_b_xor, polyModGo_xor]

/-- On the eight basis bits, `gf256.mul` and the reference product agree
(checked exhaustively for every byte `a`). -/
theorem basis_agrees : ∀ a : Fin 256, ∀ i : Fin 8,
    ImprovedCrypto.mul a.val (2 ^ i.val) = mulRef a.val (2 ^ i.val) := by decide

/-- The loop `gf256.mul` computes the specification's reference GF(256) product. -/
theorem mul_eq_mulRef (a b : Nat) (ha : a < 256) (hb : b < 256) :
    ImprovedCrypto.mul a b = mulRef a b := by
  refine linear_eq_on_basis (ImprovedCrypto.mul a) (mulRef a)
    (ImprovedCrypto.mul_b_xor a) (ImprovedCrypto.mul_b_zero a)
    (mulRef_b_xor a) (mulRef_b_zero a) ?_ b hb
  intro i hi
  exact basis_agrees ⟨a, ha⟩ ⟨i, hi⟩

end GF256Ref

namespace ImprovedCrypto

/-! ### Derived multiplicative-group facts -/

/-- Abbreviation for the inverse-table lookup `inverseTable[b]`. -/
abbrev tableInv (b : Nat) : Nat := inverseTable.getD b 0

theorem tableInv_lt (b : Nat) (hb : b < 256) : tableInv b < 256 := inverseTable_lt ⟨b, hb⟩

theorem tableInv_ne_zero (b : Nat) (hb : b < 256) (h0 : b ≠ 0) : tableInv b ≠ 0 :=
  inverseTable_ne_zero ⟨b, hb⟩ h0

theorem mul_tableInv (b : Nat) (hb : b < 256) (h0 : b ≠ 0) : mul b (tableInv b) = 1 :=
  mul_inverseTable ⟨b, hb⟩ h0

theorem tableInv_mul_cancel (b : Nat) (hb : b < 256) (h0 : b ≠ 0) :
    mul (tableInv b) b = 1 := by
  rw [mul_comm_lt _ (tableInv_lt b hb) _ hb]
  exact mul_tableInv b hb h0

theorem mul_cancel_left (a x : Nat) (ha : a < 256) (hx : x < 256) (h0 : a ≠ 0) :
    mul (tableInv a) (mul a x) = x := by
  rw [← mul_assoc_lt (tableInv a) (tableInv_lt a ha) a x ha hx,
    tableInv_mul_cancel a ha h0, mul_one_left' x hx]

theorem mul_ne_zero' (a b : Nat) (ha : a < 256) (hb : b < 256)
    (h0a : a ≠ 0) (h0b : b ≠ 0) : mul a b ≠ 0 := by
  intro h
  have hcan := mul_cancel_left a b ha hb h0a
  rw [h, mul_b_zero] at hcan
  exact h0b hcan.symm

theorem eq_tableInv_of_mul_eq_one (a x : Nat) (ha : a < 256) (hx : x < 256)
    (h0a : a ≠ 0) (h : mul a x = 1) : x = tableInv a := by
  have h1 := mul_cancel_left a x ha hx h0a
  rw [h, mul_one_right' (tableInv a) (tableInv_lt a ha)] at h1
  exact h1.symm

theorem mul_mul_mul_comm' (a b c d : Nat) (ha : a < 256) (hb : b < 256)
    (hc : c < 256) (hd : d < 256) :
    mul (mul a b) (mul c d) = mul (mul a c) (mul b d) := by
  rw [mul_assoc_lt a ha b (mul c d) hb (mul_lt c d hc),
    ← mul_assoc_lt b hb c d hc hd, mul_comm_lt b hb c hc,
    mul_assoc_lt c hc b d hb hd,
    ← mul_assoc_lt a ha c (mul b d) hc (mul_lt b d hb)]

theorem tableInv_mul (a b : Nat) (ha : a < 256) (hb : b < 256)
    (h0a : a ≠ 0) (h0b : b ≠ 0) :
    tableInv (mul a b) = mul (tableInv a) (tableInv b) := by
  symm
  apply eq_tableInv_of_mul_eq_one (mul a b) _ (mul_lt a b ha)
    (mul_lt _ _ (tableInv_lt a ha)) (mul_ne_zero' a b ha hb h0a h0b)
  rw [mul_mul_mul_comm' a b (tableInv a) (tableInv b) ha hb
      (tableInv_lt a ha) (tableInv_lt b hb),
    mul_tableInv a ha h0a, mul_tableInv b hb h0b]
  exact mul_one_left' 1 (by omega)

/-- On a nonzero divisor, `gf256.div` succeeds with `a · inverseTable[b]`. -/
theorem div_ok (a b : Nat) (h0 : b ≠ 0) : div a b = .ok (mul a (tableInv b)) := by
  unfold div
  rw [if_neg h0]
  by_cases ha : a = 0
  · rw [if_pos ha, ha, mul_a_zero]
  · rw [if_neg ha]

theorem div_zero_right (a : Nat) : div a 0 = .error .divisionByZero := by
  unfold div
  rw [if_pos rfl]

end ImprovedCrypto

/-! ### Generic `foldlM` helpers over `Except` -/

/-- Two monadic folds with pointwise-equal step functions are equal. -/
theorem foldlM_congr {α β : Type} (l : List α) (f g : β → α → Except JsErr β) :
    ∀ init, (∀ e ∈ l, ∀ acc, f acc e = g acc e) →
      l.foldlM f init = l.foldlM g init := by
  induction l with
  | nil => intro init _; rfl
  | cons e t ih =>
      intro init h
      rw [List.foldlM_cons, List.foldlM_cons, h e (by simp)]
      cases hg : g init e with
      | error err => rfl
      | ok v => exact ih v (fun e' he' acc => h e' (List.mem_cons_of_mem _ he') acc)

/-- A monadic fold whose steps each either succeed or fail with the fixed
error `E` fails with `E` as soon as some element always fails. -/
theorem foldlM_error {α β : Type} (l : List α) (f : β → α → Except JsErr β) (E : JsErr) :
    (∀ e ∈ l, ∀ acc, (∃ v, f acc e = .ok v) ∨ f acc e = .error E) →
      (∃ e ∈ l, ∀ acc, f acc e = .error E) →
      ∀ init, l.foldlM f init = .error E := by
  induction l with
  | nil =>
      intro _ hbad
      rcases hbad with ⟨e, he, _⟩
      simp at he
  | cons a t ih =>
      intro hdich hbad init
      rw [List.foldlM_cons]
      rcases hdich a (by simp) init with ⟨v, hv⟩ | hv
      · rw [hv]
        show t.foldlM f v = .error E
        rcases hbad with ⟨e, he, hbadE⟩
        rcases List.mem_cons.mp he with rfl | het
        · have hcontr := hbadE init
          rw [hv] at hcontr
          simp at hcontr
        · exact ih (fun e' he' acc => hdich e' (List.mem_cons_of_mem _ he') acc)
            ⟨e, het, hbadE⟩ v
      · rw [hv]
        rfl

namespace ImprovedCrypto

/-! ### Error analysis of `lagrangeInterpolation` on duplicate points -/

/-- Once the denominator accumulator is `0` it stays `0`. -/
theorem numDen_snd_absorb (i xi : Nat) :
    ∀ (l : List (Nat × (Nat × Option Nat))) (n : Nat),
      (l.foldl (numDenStep i xi) (n, 0)).snd = 0 := by
  intro l
  induction l with
  | nil => intro n; rfl
  | cons e t ih =>
      intro n
      rw [List.foldl_cons]
      unfold numDenStep
      by_cases h : e.fst = i
      · rw [if_pos h]; exact ih n
      · rw [if_neg h]
        show (t.foldl (numDenStep i xi) (mul n e.snd.fst, mul 0 (e.snd.fst ^^^ xi))).snd = 0
        rw [mul_a_zero]
        exact ih _

/-- A duplicated `x` among the other points drives the denominator to `0`. -/
theorem numDen_snd_zero_of_dup (i xi : Nat) :
    ∀ (l : List (Nat × (Nat × Option Nat))) (nd : Nat × Nat),
      (∃ e ∈ l, e.fst ≠ i ∧ e.snd.fst = xi) →
      (l.foldl (numDenStep i xi) nd).snd = 0 := by
  intro l
  induction l with
  | nil =>
      intro nd hdup
      rcases hdup with ⟨e, he, _⟩
      simp at he
  | cons a t ih =>
      intro nd hdup
      rw [List.foldl_cons]
      rcases hdup with ⟨e, he, hne, hx⟩
      rcases List.mem_cons.mp he with rfl | het
      · unfold numDenStep
        rw [if_neg hne, hx, Nat.xor_self, mul_b_zero]
        exact numDen_snd_absorb i xi t _
      · exact ih _ ⟨e, het, hne, hx⟩

/-- Whenever some point with a duplicated `x` coordinate carries a `y` value
other than literal `0`, `lagrangeInterpolation` throws the division-by-zero
error; the skipped (`y = 0`) terms never reach the division. -/
theorem lagrange_error_of_dup (points : List (Nat × Option Nat))
    (hbad : ∃ ip ∈ points.enum, ip.snd.snd ≠ some 0 ∧
      ∃ jp ∈ points.enum, jp.fst ≠ ip.fst ∧ jp.snd.fst = ip.snd.fst) :
    lagrangeInterpolation points = .error .divisionByZero := by
  unfold lagrangeInterpolation
  apply foldlM_error
  · intro ip _ acc
    unfold interpStep
    by_cases hy : ip.snd.snd = some 0
    · exact .inl ⟨acc, by rw [if_pos hy]; rfl⟩
    · rw [if_neg hy]
      by_cases hd : (lagrangeNumDen points ip.fst ip.snd.fst).snd = 0
      · right
        rw [hd, div_zero_right]
        rfl
      · exact .inl ⟨_, by rw [div_ok _ _ hd]; rfl⟩
  · rcases hbad with ⟨ip, hip, hy, jp, hjp, hne, hx⟩
    refine ⟨ip, hip, fun acc => ?_⟩
    unfold interpStep
    rw [if_neg hy]
    have hd : (lagrangeNumDen points ip.fst ip.snd.fst).snd = 0 :=
      numDen_snd_zero_of_dup _ _ _ _ ⟨jp, hjp, hne, hx⟩
    rw [hd, div_zero_right]
    rfl

end ImprovedCrypto

deriving instance DecidableEq for Except

/-! ### Bridging `test.js` arithmetic to `improved-crypto.js` arithmetic -/

/-- Masking a byte by `0xff` is the identity. -/
theorem and255_eq (z : Nat) (hz : z < 256) : z &&& 0xff = z := by
  have h := Nat.and_pow_two_sub_one_of_lt_two_pow (x := z) (n := 8) (by norm_num; omega)
  norm_num at h
  exact h

/-- Xor of bytes is a byte. -/
theorem xor_lt_256 {x y : Nat} (hx : x < 256) (hy : y < 256) : x ^^^ y < 256 :=
  Nat.xor_lt_two_pow (n := 8) (by norm_num; omega) (by norm_num; omega)

namespace TestJs

/-- On bytes, `GF256.mul` agrees with `gf256.mul` (masks are no-ops; the zero
short-circuit matches the loop's behaviour on a zero operand). -/
theorem mul_eq_improved (a b : Nat) (ha : a < 256) (hb : b < 256) :
    mul a b = ImprovedCrypto.mul a b := by
  unfold mul
  rw [and255_eq a ha, and255_eq b hb]
  by_cases h : a = 0 ∨ b = 0
  · rw [if_pos h]
    rcases h with h | h
    · rw [h, ImprovedCrypto.mul_a_zero]
    · rw [h, ImprovedCrypto.mul_b_zero]
  · rw [if_neg h]
    rfl

/-- The extended-Euclid inverse agrees with the precomputed table on every
nonzero byte (checked exhaustively). -/
theorem inverse_eq_table : ∀ a : Fin 256, a.val ≠ 0 →
    inverse a.val = .ok (ImprovedCrypto.tableInv a.val) := by decide

/-- On bytes with a nonzero divisor, `GF256.div` succeeds and agrees with
table-based division. -/
theorem div_ok' (a b : Nat) (ha : a < 256) (hb : b < 256) (h0 : b ≠ 0) :
    div a b = .ok (ImprovedCrypto.mul a (ImprovedCrypto.tableInv b)) := by
  unfold div
  rw [and255_eq b hb, and255_eq a ha, if_neg h0]
  by_cases ha0 : a = 0
  · rw [if_pos ha0, ha0, ImprovedCrypto.mul_a_zero]
  · rw [if_neg ha0, inverse_eq_table ⟨b, hb⟩ h0]
    show Except.ok (mul a (ImprovedCrypto.tableInv b)) = _
    rw [mul_eq_improved a _ ha (ImprovedCrypto.tableInv_lt b hb)]

end TestJs

/-! ### Equivalence of the two interpolation implementations -/

/-- Lift a `test.js` enumerated point to an `improved-crypto.js` one. -/
def mappedPoint (e : Nat × (Nat × Nat)) : Nat × (Nat × Option Nat) :=
  (e.fst, (e.snd.fst, some e.snd.snd))

/-- The function `enum` commutes with `map` on the payload. -/
theorem enumFrom_map_payload {α β : Type} (f : α → β) (l : List α) :
    ∀ n, (l.map f).enumFrom n = (l.enumFrom n).map (fun e => (e.fst, f e.snd)) := by
  induction l with
  | nil => intro n; rfl
  | cons a t ih =>
      intro n
      rw [List.map_cons, List.enumFrom_cons, List.enumFrom_cons, List.map_cons, ih (n + 1)]

/-- A monadic fold all of whose steps succeed succeeds. -/
theorem foldlM_all_ok {α β : Type} (l : List α) (f : β → α → Except JsErr β) :
    (∀ e ∈ l, ∀ acc, ∃ v, f acc e = .ok v) →
      ∀ init, ∃ v, l.foldlM f init = .ok v := by
  induction l with
  | nil => intro _ init; exact ⟨init, rfl⟩
  | cons a t ih =>
      intro h init
      rcases h a (by simp) init with ⟨v, hv⟩
      rw [List.foldlM_cons, hv]
      exact ih (fun e he acc => h e (List.mem_cons_of_mem _ he) acc) v

/-- Joint induction relating the inner loops of the two interpolation
implementations: starting from accumulators related by `b = n / d`, the
`test.js` basis loop succeeds and stays related to the numerator/denominator
loop of `improved-crypto.js`. -/
theorem c7_inner (i xi : Nat) (hxi : xi < 256) :
    ∀ (l : List (Nat × (Nat × Nat))),
      (∀ e ∈ l, e.snd.fst < 256) →
      (∀ e ∈ l, e.fst ≠ i → e.snd.fst ≠ xi) →
      ∀ n d b : Nat, n < 256 → d < 256 → d ≠ 0 →
        b = ImprovedCrypto.mul n (ImprovedCrypto.tableInv d) →
        ∃ N D,
          (l.map mappedPoint).foldl (ImprovedCrypto.numDenStep i xi) (n, d) = (N, D) ∧
          N < 256 ∧ D < 256 ∧ D ≠ 0 ∧
          l.foldlM (TestJs.basisStep i xi) b =
            .ok (ImprovedCrypto.mul N (ImprovedCrypto.tableInv D)) := by
  intro l
  induction l with
  | nil =>
      intro _ _ n d b hn hd hd0 hb
      exact ⟨n, d, rfl, hn, hd, hd0, by rw [hb]; rfl⟩
  | cons e t ih =>
      intro hlt hne n d b hn hd hd0 hb
      have hxe : e.snd.fst < 256 := hlt e (by simp)
      by_cases hei : e.fst = i
      · have hstep : ImprovedCrypto.numDenStep i xi (n, d) (mappedPoint e) = (n, d) := by
          unfold ImprovedCrypto.numDenStep mappedPoint
          rw [if_pos hei]
        have hbstep : TestJs.basisStep i xi b e = pure b := by
          unfold TestJs.basisStep
          rw [if_pos hei]
        rw [List.map_cons, List.foldl_cons, hstep, List.foldlM_cons, hbstep]
        exact ih (fun e' he' => hlt e' (List.mem_cons_of_mem _ he'))
          (fun e' he' => hne e' (List.mem_cons_of_mem _ he')) n d b hn hd hd0 hb
      · have hxne : e.snd.fst ≠ xi := hne e (by simp) hei
        have hdenom0 : xi ^^^ e.snd.fst ≠ 0 := by
          rw [Ne, Nat.xor_eq_zero]
          exact fun hc => hxne hc.symm
        have hdenomlt : xi ^^^ e.snd.fst < 256 := xor_lt_256 hxi hxe
        have hblt : b < 256 := by
          rw [hb]
          exact ImprovedCrypto.mul_lt _ _ hn
        -- the two step results
        have hstep : ImprovedCrypto.numDenStep i xi (n, d) (mappedPoint e) =
            (ImprovedCrypto.mul n e.snd.fst,
             ImprovedCrypto.mul d (e.snd.fst ^^^ xi)) := by
          unfold ImprovedCrypto.numDenStep mappedPoint
          rw [if_neg hei]
        have hbstep : TestJs.basisStep i xi b e =
            .ok (TestJs.mul b (ImprovedCrypto.mul e.snd.fst
              (ImprovedCrypto.tableInv (xi ^^^ e.snd.fst)))) := by
          unfold TestJs.basisStep
          rw [if_neg hei]
          have hsub : TestJs.sub xi e.snd.fst = xi ^^^ e.snd.fst := rfl
          rw [hsub, if_neg hdenom0, TestJs.div_ok' _ _ hxe hdenomlt hdenom0]
          rfl
        -- re-establish the invariant for the new accumulators
        have hb' : TestJs.mul b (ImprovedCrypto.mul e.snd.fst
              (ImprovedCrypto.tableInv (xi ^^^ e.snd.fst))) =
            ImprovedCrypto.mul (ImprovedCrypto.mul n e.snd.fst)
              (ImprovedCrypto.tableInv
                (ImprovedCrypto.mul d (e.snd.fst ^^^ xi))) := by
          rw [TestJs.mul_eq_improved _ _ hblt
              (ImprovedCrypto.mul_lt _ _ hxe), hb,
            ImprovedCrypto.mul_mul_mul_comm' n (ImprovedCrypto.tableInv d)
              e.snd.fst (ImprovedCrypto.tableInv (xi ^^^ e.snd.fst)) hn
              (ImprovedCrypto.tableInv_lt d hd) hxe
              (ImprovedCrypto.tableInv_lt _ hdenomlt),
            Nat.xor_comm e.snd.fst xi,
            ImprovedCrypto.tableInv_mul d (xi ^^^ e.snd.fst) hd hdenomlt hd0 hdenom0]
        rw [List.map_cons, List.foldl_cons, hstep, List.foldlM_cons, hbstep]
        show ∃ N D, _ ∧ _ ∧ _ ∧ _ ∧ t.foldlM (TestJs.basisStep i xi) _ = _
        refine ih (fun e' he' => hlt e' (List.mem_cons_of_mem _ he'))
          (fun e' he' => hne e' (List.mem_cons_of_mem _ he'))
          (ImprovedCrypto.mul n e.snd.fst)
          (ImprovedCrypto.mul d (e.snd.fst ^^^ xi))
          (TestJs.mul b (ImprovedCrypto.mul e.snd.fst
            (ImprovedCrypto.tableInv (xi ^^^ e.snd.fst))))
          (ImprovedCrypto.mul_lt _ _ hn) (ImprovedCrypto.mul_lt _ _ hd) ?_ hb'
        rw [Nat.xor_comm e.snd.fst xi]
        exact ImprovedCrypto.mul_ne_zero' d (xi ^^^ e.snd.fst) hd hdenomlt hd0 hdenom0

/-- Membership in `enum` determines the entry by its index. -/
theorem enum_mem_spec {α : Type} {l : List α} {e : Nat × α} (he : e ∈ l.enum) :
    ∃ h : e.fst < l.length, l[e.fst] = e.snd := by
  obtain ⟨k, hk, heq⟩ := List.getElem_of_mem he
  have hk' : k < l.length := by simpa using hk
  unfold List.enum at heq
  rw [List.getElem_enumFrom] at heq
  subst heq
  simp only [Nat.zero_add]
  exact ⟨hk', trivial⟩

/-- With pairwise-distinct `x` coordinates, distinct enumerated points carry
distinct `x` values. -/
theorem enum_x_ne {pts : List (Nat × Nat)} (hnd : (pts.map Prod.fst).Nodup)
    {ip jp : Nat × (Nat × Nat)} (hip : ip ∈ pts.enum) (hjp : jp ∈ pts.enum)
    (hne : jp.fst ≠ ip.fst) : jp.snd.fst ≠ ip.snd.fst := by
  obtain ⟨hi, hieq⟩ := enum_mem_spec hip
  obtain ⟨hj, hjeq⟩ := enum_mem_spec hjp
  intro hc
  apply hne
  have hi2 : ip.fst < (pts.map Prod.fst).length := by simpa using hi
  have hj2 : jp.fst < (pts.map Prod.fst).length := by simpa using hj
  have h1 : (pts.map Prod.fst).get ⟨jp.fst, hj2⟩ = jp.snd.fst := by
    rw [List.get_eq_getElem, List.getElem_map, hjeq]
  have h2 : (pts.map Prod.fst).get ⟨ip.fst, hi2⟩ = ip.snd.fst := by
    rw [List.get_eq_getElem, List.getElem_map, hieq]
  have h3 := (hnd.get_inj_iff).mp (h1.trans (hc.trans h2.symm))
  exact congrArg Fin.val h3

/-- The function `enum` applied to a payload-mapped list. -/
theorem enum_map_payload {α β : Type} (f : α → β) (l : List α) :
    (l.map f).enum = l.enum.map (fun e => (e.fst, f e.snd)) :=
  enumFrom_map_payload f l 0

/-- On every nonempty list of byte points with pairwise distinct `x`
coordinates, the two Lagrange implementations both succeed and return the
same byte. -/
theorem c7_equiv (pts : List (Nat × Nat)) (hne : pts ≠ [])
    (hb : ∀ p ∈ pts, p.fst < 256 ∧ p.snd < 256)
    (hnd : (pts.map Prod.fst).Nodup) :
    ∃ v, TestJs.lagrangeInterpolation pts = .ok v ∧
      ImprovedCrypto.lagrangeInterpolation
        (pts.map (fun p => (p.fst, (some p.snd : Option Nat)))) = .ok v := by
  have henum_lt : ∀ jp ∈ pts.enum, jp.snd.fst < 256 := by
    intro jp hjp
    obtain ⟨h, heq⟩ := enum_mem_spec hjp
    have : jp.snd ∈ pts := heq ▸ List.getElem_mem h
    exact (hb jp.snd this).1
  have hinv1 : (1 : Nat) = ImprovedCrypto.mul 1 (ImprovedCrypto.tableInv 1) := by decide
  have key : ∀ e ∈ pts.enum, ∀ acc,
      (ImprovedCrypto.interpStep (pts.map (fun p => (p.fst, (some p.snd : Option Nat))))
        acc (mappedPoint e) = TestJs.termStep pts acc e) ∧
      ∃ v, TestJs.termStep pts acc e = .ok v := by
    intro e he acc
    obtain ⟨hel, heeq⟩ := enum_mem_spec he
    have hmem : e.snd ∈ pts := heeq ▸ List.getElem_mem hel
    have hxi : e.snd.fst < 256 := (hb e.snd hmem).1
    have hyi : e.snd.snd < 256 := (hb e.snd hmem).2
    obtain ⟨N, D, hfold, hN, hD, hD0, htest⟩ :=
      c7_inner e.fst e.snd.fst hxi pts.enum henum_lt
        (fun jp hjp hjne => enum_x_ne hnd he hjp hjne)
        1 1 1 (by omega) (by omega) (by omega) hinv1
    have hnumden : ImprovedCrypto.lagrangeNumDen
        (pts.map (fun p => (p.fst, (some p.snd : Option Nat)))) e.fst e.snd.fst = (N, D) := by
      unfold ImprovedCrypto.lagrangeNumDen
      rw [enum_map_payload]
      exact hfold
    have hterm : TestJs.termStep pts acc e =
        .ok (acc ^^^ ImprovedCrypto.mul e.snd.snd
          (ImprovedCrypto.mul N (ImprovedCrypto.tableInv D))) := by
      unfold TestJs.termStep
      rw [htest]
      show Except.ok (TestJs.add acc (TestJs.mul e.snd.snd
        (ImprovedCrypto.mul N (ImprovedCrypto.tableInv D)))) = _
      rw [TestJs.mul_eq_improved _ _ hyi
        (ImprovedCrypto.mul_lt _ _ hN)]
      rfl
    constructor
    · rw [hterm]
      unfold ImprovedCrypto.interpStep
      show (if (mappedPoint e).snd.snd = some 0 then pure acc else _) = _
      by_cases hy0 : e.snd.snd = 0
      · rw [if_pos (by unfold mappedPoint; rw [hy0])]
        rw [hy0, ImprovedCrypto.mul_a_zero, Nat.xor_zero]
        rfl
      · rw [if_neg (by unfold mappedPoint; simpa using hy0)]
        show (ImprovedCrypto.div
            (ImprovedCrypto.lagrangeNumDen _ (mappedPoint e).fst
              (mappedPoint e).snd.fst).fst
            (ImprovedCrypto.lagrangeNumDen _ (mappedPoint e).fst
              (mappedPoint e).snd.fst).snd).map
            (fun q => acc ^^^ ImprovedCrypto.mul ((mappedPoint e).snd.snd.getD 0) q) = _
        rw [show (mappedPoint e).fst = e.fst from rfl,
          show (mappedPoint e).snd.fst = e.snd.fst from rfl,
          show (mappedPoint e).snd.snd.getD 0 = e.snd.snd from rfl,
          hnumden, ImprovedCrypto.div_ok _ _ hD0]
        rfl
    · exact ⟨_, hterm⟩
  have htestok : ∃ v, pts.enum.foldlM (TestJs.termStep pts) 0 = .ok v :=
    foldlM_all_ok pts.enum (TestJs.termStep pts) (fun e he acc => (key e he acc).2) 0
  obtain ⟨v, hv⟩ := htestok
  refine ⟨v, ?_, ?_⟩
  · unfold TestJs.lagrangeInterpolation
    rw [if_neg (by rw [List.length_eq_zero]; exact hne)]
    exact hv
  · unfold ImprovedCrypto.lagrangeInterpolation
    rw [enum_map_payload]
    show (pts.enum.map mappedPoint).foldlM
      (ImprovedCrypto.interpStep (pts.map (fun p => (p.fst, (some p.snd : Option Nat))))) 0 = _
    rw [List.foldlM_map]
    rw [foldlM_congr pts.enum _ (TestJs.termStep pts) 0
      (fun e he acc => (key e he acc).1)]
    exact hv

namespace ImprovedCrypto

/-! ### `fallbackDeriveKey`

JavaScript strings are UTF-16 code-unit sequences; here they are modelled as
`List Nat` of code units (`charCodeAt`).  The 32-bit signed wrap-around of
`hash |= 0` and of `hash << 5` is modelled by `toInt32`. -/

/-- Model of `ToInt32`: wrap an integer into `[-2^31, 2^31)`. -/
def toInt32 (x : Int) : Int := (x + 2 ^ 31) % 2 ^ 32 - 2 ^ 31

/-- One character step of the string hash:
`hash = ((hash << 5) - hash) + key.charCodeAt(j); hash |= 0`.  The shift acts
on the 32-bit value (`toInt32 (h * 32)`); the subtraction and addition are
exact in doubles at these magnitudes; `|= 0` wraps the result. -/
def hashStep (h : Int) (c : Nat) : Int := toInt32 (toInt32 (h * 32) - h + c)

/-- The inner `for (j)` loop: hash every code unit of the key. -/
def hashString (codeUnits : List Nat) : Int := codeUnits.foldl hashStep 0

/-- Code unit of a lowercase hex digit (`toString(16)` digits). -/
def hexDigitCode (d : Nat) : Nat := if d < 10 then 48 + d else 87 + d

/-- Digit-extraction loop of `Number.prototype.toString(16)` on code units. -/
def natToHexCodesGo : Nat → Nat → List Nat → List Nat
  | 0, _, acc => acc
  | fuel + 1, n, acc =>
      if n = 0 then acc else natToHexCodesGo fuel (n / 16) (hexDigitCode (n % 16) :: acc)

/-- Model of `n.toString(16)` of a nonnegative number, as code units. -/
def natToHexCodes (n : Nat) : List Nat := if n = 0 then [48] else natToHexCodesGo 16 n []

/-- Model of `n.toString(16)` of a possibly negative 32-bit value: a `'-'` (code 45)
followed by the hex digits of the magnitude. -/
def intToHexCodes (n : Int) : List Nat :=
  if n < 0 then 45 :: natToHexCodes n.natAbs else natToHexCodes n.toNat

/-- Model of `b.toString(16).padStart(2, '0')` for a byte, as code units. -/
def byteHexCodes (b : Nat) : List Nat := [hexDigitCode (b / 16), hexDigitCode (b % 16)]

/-- One iteration of the outer `for (i)` loop: hash the current key string and
replace it by the hash's hex representation. -/
def hashRound (keyUnits : List Nat) : List Nat := intToHexCodes (hashString keyUnits)

/-- Runs `n` iterations of `hashRound` (the source runs 1000). -/
def hashIterate : Nat → List Nat → List Nat
  | 0, key => key
  | n + 1, key => hashIterate n (hashRound key)

/-- Value of a hex-digit code unit (`0-9`, `a-f`, `A-F`). -/
def hexCodeVal (c : Nat) : Option Nat :=
  if 48 ≤ c ∧ c ≤ 57 then some (c - 48)
  else if 97 ≤ c ∧ c ≤ 102 then some (c - 87)
  else if 65 ≤ c ∧ c ≤ 70 then some (c - 55)
  else none

/-- Digit-consuming loop of `parseInt(_, 16)` on code units. -/
def parseHexCodesGo : List Nat → Nat → Nat
  | [], acc => acc
  | c :: rest, acc =>
      match hexCodeVal c with
      | none => acc
      | some v => parseHexCodesGo rest (16 * acc + v)

/-- Model of `parseInt(s, 16)` on code units for an unsigned string. -/
def parseHexCodes : List Nat → Option Nat
  | [] => none
  | c :: rest =>
      match hexCodeVal c with
      | none => none
      | some v => some (parseHexCodesGo rest v)

/-- Model of `parseInt(s, 16)` including a possible leading `'-'` (the key string is a
hex representation that may start with a minus sign). -/
def parseHexSigned : List Nat → Option Int
  | 45 :: rest => (parseHexCodes rest).map (fun v => -(v : Int))
  | l => (parseHexCodes l).map (fun v => (v : Int))

/-- Element assignment into a `Uint8Array`: `NaN` becomes `0`, other integers
are taken modulo 256. -/
def jsToUint8 (o : Option Int) : Nat :=
  match o with
  | none => 0
  | some v => (v % 256).toNat

/-- Model of `key.substr(start, 2) || '0'` (the `|| '0'` only fires on an empty
substring, i.e. when `start` is past the end). -/
def substr2OrZero (l : List Nat) (start : Nat) : List Nat :=
  if (l.drop start).take 2 = [] then [48] else (l.drop start).take 2

/-- The object resolved by `fallbackDeriveKey` (`derivedKey: null` is a
constant and is not modelled). -/
structure FallbackDerived where
  key : List Nat
  salt : List Nat
  isWebCrypto : Bool
  deriving DecidableEq, Repr

/-- Model of `fallbackDeriveKey` of `improved-crypto.js`: concatenate password and salt
hex, apply 1000 rounds of the 32-bit string hash, and expand the final hash
string into 32 bytes read as hex pairs at positions `(2*i) % key.length`. -/
def fallbackDeriveKey (passwordUnits : List Nat) (salt : List Nat) : FallbackDerived :=
  let saltHex := (salt.map byteHexCodes).flatten
  let finalKey := hashIterate 1000 (passwordUnits ++ saltHex)
  let derivedKeyArray := (List.range 32).map (fun i =>
    jsToUint8 (parseHexSigned (substr2OrZero finalKey ((i * 2) % finalKey.length))))
  { key := (derivedKeyArray.map byteHexCodes).flatten,
    salt := saltHex,
    isWebCrypto := false }

/-- Hex expansion doubles the length. -/
theorem flatten_byteHexCodes_length (l : List Nat) :
    ((l.map byteHexCodes).flatten).length = 2 * l.length := by
  induction l with
  | nil => rfl
  | cons b t ih =>
      rw [List.map_cons, List.flatten_cons, List.length_append, ih]
      show 2 + 2 * t.length = 2 * (t.length + 1)
      omega

end ImprovedCrypto

/-! ### The tiered secure storage (`saveToSecureStorage` / `getFromSecureStorage`) -/

/-- The storage state visible to the secure-storage functions: the IndexedDB
contents, a flag making every IndexedDB operation fail (open, transaction or
put/get errors all surface as a `false`/`null` resolution in the source), and
the in-memory backup table `window._secureBackupStorage`.  The stored record
type is abstract — the storage layer treats it as opaque data. -/
structure SecureStorageWorld (α : Type) where
  idbBroken : Bool
  idb : List (String × α)
  memory : List (String × α)

namespace ImprovedCrypto

/-- Model of `saveToIndexedDB`: resolves `true` on success, `false` on any failure
(the put is an upsert, modelled by consing onto the association list). -/
def saveToIndexedDB {α : Type} (w : SecureStorageWorld α) (key : String) (data : α) :
    Bool × SecureStorageWorld α :=
  if w.idbBroken then (false, w)
  else (true, { w with idb := (key, data) :: w.idb })

/-- Model of `getFromIndexedDB`: resolves the stored record, or `null` on any failure
or absence. -/
def getFromIndexedDB {α : Type} (w : SecureStorageWorld α) (key : String) : Option α :=
  if w.idbBroken then none else w.idb.lookup key

/-- Model of `saveToSecureStorage`: try IndexedDB first; on failure write to the
in-memory backup table; resolve `true` either way. -/
def saveToSecureStorage {α : Type} (w : SecureStorageWorld α) (key : String) (data : α) :
    Bool × SecureStorageWorld α :=
  if (saveToIndexedDB w key data).fst then (true, (saveToIndexedDB w key data).snd)
  else (true, { (saveToIndexedDB w key data).snd with
    memory := (key, data) :: (saveToIndexedDB w key data).snd.memory })

/-- Model of `getFromSecureStorage`: IndexedDB first, then the in-memory table,
`null` only when both miss. -/
def getFromSecureStorage {α : Type} (w : SecureStorageWorld α) (key : String) : Option α :=
  match getFromIndexedDB w key with
  | some d => some d
  | none => w.memory.lookup key

/-- The fixed logical key under which the master key record is stored. -/
def masterKeyName : String := "masterKey"

/-- The final storage step of `storeEncryptionKeySecurely`
(`return await saveToSecureStorage('masterKey', secureData)`); the encryption
pipeline above it runs in the platform cryptographic provider and is out of
scope, so the prepared `secureData` record is a parameter. -/
def storeEncryptionKeySecurely {α : Type} (w : SecureStorageWorld α) (secureData : α) :
    Bool × SecureStorageWorld α :=
  saveToSecureStorage w masterKeyName secureData

end ImprovedCrypto

/-! ## The claims -/

/-- Helper: binding an `Except.ok` value. -/
theorem jsBind_ok {α β : Type} (a : α) (f : α → Except JsErr β) :
    (Except.ok a >>= f) = f a := rfl

/-- Helper: `pure` into `Except` is `Except.ok`. -/
theorem jsPure_eq {α : Type} (a : α) : (pure a : Except JsErr α) = .ok a := rfl

/-- Helper: binding an `Except.error` value. -/
theorem jsBind_error {α β : Type} (e : JsErr) (f : α → Except JsErr β) :
    ((Except.error e : Except JsErr α) >>= f) = .error e := rfl

/-- Helper: decoding the share values is a function of the value strings. -/
theorem mapM_decode_value (l : List ImprovedCrypto.ShareInput) :
    l.mapM (fun s => ImprovedCrypto.decodeShare s.value) =
      (l.map (fun s => s.value)).mapM ImprovedCrypto.decodeShare := by
  induction l with
  | nil => rfl
  | cons a t ih => rw [List.mapM_cons, List.map_cons, List.mapM_cons, ih]

/-- Claim C1 (failing input): the split/combine round trip does NOT return the
secret.  With secret byte 65, `totalShares = 2`, `threshold = 2` and random
coefficient 1, `createShares` yields the shares `800140` and `800283`, and
`combineShares` on them returns the byte 1 — the random coefficient — instead
of the secret 65.  The cause: `evaluatePolynomial` iterates Horner from
`coeffs[0]`, making the secret the leading coefficient, so interpolation's
`f(0)` is the last (random) coefficient. -/
theorem spec2_c1_failing :
    (ImprovedCrypto.createShares [65] 2 2 (fun _ _ => 1)).bind
        ImprovedCrypto.combineShares = .ok (ImprovedCrypto.utf8Tag, [1]) ∧
    (ImprovedCrypto.createShares [65] 2 2 (fun _ _ => 1)).bind
        ImprovedCrypto.combineShares ≠ .ok (ImprovedCrypto.utf8Tag, [65]) := by
  constructor
  · rfl
  · decide

/-- Claim C2 (amended): `createShares` fails with the threshold validation
error exactly when `threshold < 2`, and with the total-shares validation error
when `threshold ≥ 2` and `totalShares < threshold`; for every other input —
including `totalShares > 255`, which the code does not validate — a share
list is returned. -/
theorem spec2_c2 (secretBytes : List Nat) (totalShares threshold : Nat)
    (rand : Nat → Nat → Nat) :
    (threshold < 2 →
      ImprovedCrypto.createShares secretBytes totalShares threshold rand =
        .error .validationThreshold) ∧
    (2 ≤ threshold → totalShares < threshold →
      ImprovedCrypto.createShares secretBytes totalShares threshold rand =
        .error .validationTotalShares) ∧
    (2 ≤ threshold → threshold ≤ totalShares →
      ∃ shares, ImprovedCrypto.createShares secretBytes totalShares threshold rand =
        .ok shares) := by
  refine ⟨fun h => ?_, fun h2 h => ?_, fun h2 h => ?_⟩
  · unfold ImprovedCrypto.createShares
    rw [if_pos h]
  · unfold ImprovedCrypto.createShares
    rw [if_neg (by omega), if_pos h]
  · unfold ImprovedCrypto.createShares
    rw [if_neg (by omega), if_neg (by omega)]
    exact ⟨_, rfl⟩

/-- Claim C2 witness: a valid input yields a share list. -/
theorem spec2_c2_wit :
    ∃ shares, ImprovedCrypto.createShares [65] 5 3 (fun _ _ => 0) = .ok shares :=
  (spec2_c2 [65] 5 3 (fun _ _ => 0)).2.2 (by omega) (by omega)

/-- Claim C2 counterexample: `totalShares = 256` exceeds the 255-value index
domain, yet `createShares` raises no validation error and returns a share
list (the 256th share's `x` is encoded as three hex digits `100`). -/
theorem spec2_c2_cex :
    ∃ shares, ImprovedCrypto.createShares [65] 256 2 (fun _ _ => 1) = .ok shares :=
  ⟨_, rfl⟩

/-- Claim C3 (amended): whenever some input point carries a duplicated `x`
coordinate together with a `y` value other than literal `0`, the
interpolation at the heart of `combineShares` fails with the division-by-zero
error.  (When every duplicated point's `y` is `0`, the `yi === 0` skip
bypasses the division and a value is returned silently — see the
counterexample.) -/
theorem spec2_c3 (points : List (Nat × Option Nat))
    (hdup : ∃ ip ∈ points.enum, ip.snd.snd ≠ some 0 ∧
      ∃ jp ∈ points.enum, jp.fst ≠ ip.fst ∧ jp.snd.fst = ip.snd.fst) :
    ImprovedCrypto.lagrangeInterpolation points = .error .divisionByZero :=
  ImprovedCrypto.lagrange_error_of_dup points hdup

/-- Claim C3 witness: two points sharing `x = 1` with nonzero `y` make the
interpolation fail. -/
theorem spec2_c3_wit :
    ImprovedCrypto.lagrangeInterpolation [(1, some 5), (1, some 6)] =
      .error .divisionByZero :=
  spec2_c3 [(1, some 5), (1, some 6)]
    ⟨(0, (1, some 5)), by decide, by decide, (1, (1, some 6)), by decide, by decide, rfl⟩

/-- Claim C3 counterexample: two shares with the same `x = 01` whose `y` byte
is `0` are combined WITHOUT any error — `combineShares` silently returns the
zero secret instead of failing on the duplicate `x`. -/
theorem spec2_c3_cex :
    ImprovedCrypto.combineShares
      [⟨"800100".toList, none⟩, ⟨"800100".toList, none⟩] =
      .ok (ImprovedCrypto.utf8Tag, [0]) := by decide

/-- Claim C4: for every nonzero byte, the extended-Euclidean inverse of
`test.js` (`GF256.inverse`) agrees with the 256-entry table embedded in
`gf256.div`. -/
theorem spec2_c4 :
    ∀ a : Fin 256, a.val ≠ 0 →
      TestJs.inverse a.val = .ok (ImprovedCrypto.inverseTable.getD a.val 0) :=
  fun a h => TestJs.inverse_eq_table a h

/-- Claim C4 witness: the inverse of 3. -/
theorem spec2_c4_wit :
    TestJs.inverse 3 = .ok (ImprovedCrypto.inverseTable.getD 3 0) :=
  spec2_c4 ⟨3, by omega⟩ (by decide)

/-- Claim C5: on all bytes, `gf256.mul` computes the reference GF(256)
product (carry-less polynomial multiplication reduced modulo
`x^8+x^4+x^3+x+1`), returns 0 when either operand is 0, and stays within the
byte range. -/
theorem spec2_c5 :
    ∀ a b : Fin 256,
      ImprovedCrypto.mul a.val b.val = GF256Ref.mulRef a.val b.val ∧
      (a.val = 0 ∨ b.val = 0 → ImprovedCrypto.mul a.val b.val = 0) ∧
      ImprovedCrypto.mul a.val b.val < 256 := by
  intro a b
  refine ⟨GF256Ref.mul_eq_mulRef a.val b.val a.isLt b.isLt, ?_,
    ImprovedCrypto.mul_lt _ _ a.isLt⟩
  rintro (h | h)
  · rw [h, ImprovedCrypto.mul_a_zero]
  · rw [h, ImprovedCrypto.mul_b_zero]

/-- Claim C5 witness: a zero operand yields zero. -/
theorem spec2_c5_wit : ImprovedCrypto.mul 0 7 = 0 :=
  (spec2_c5 0 7).2.1 (Or.inl rfl)

/-- Claim C6 (amended): `combineShares` fails with the share-format error
whenever some supplied share string does not start with the `80` marker.
(An odd-length string is NOT rejected: its `y` payload hex-decodes to the
empty byte array — see the counterexample.) -/
theorem spec2_c6 (shares : List ImprovedCrypto.ShareInput)
    (hbad : ∃ s ∈ shares, s.value.take 2 ≠ ['8', '0']) :
    ImprovedCrypto.combineShares shares = .error .badShareFormat := by
  have hmapM : ∀ l : List ImprovedCrypto.ShareInput,
      (∃ s ∈ l, s.value.take 2 ≠ ['8', '0']) →
      l.mapM (fun s => ImprovedCrypto.decodeShare s.value) = .error .badShareFormat := by
    intro l
    induction l with
    | nil =>
        intro h
        rcases h with ⟨s, hs, _⟩
        simp at hs
    | cons a t ih =>
        intro h
        rw [List.mapM_cons]
        by_cases ha : a.value.take 2 = ['8', '0']
        · have hdec : ImprovedCrypto.decodeShare a.value = .ok
              { x := (jsParseHexLead ((a.value.drop 2).take 2)).getD 0,
                y := ImprovedCrypto.hexToBytes (a.value.drop 4) } := by
            unfold ImprovedCrypto.decodeShare
            rw [if_pos ha]
          rw [hdec, jsBind_ok]
          rcases h with ⟨s, hs, hbad'⟩
          rcases List.mem_cons.mp hs with rfl | hst
          · exact absurd ha hbad'
          · have := ih ⟨s, hst, hbad'⟩
            show Except.map _ _ = _
            rw [this]
            rfl
        · have hdec : ImprovedCrypto.decodeShare a.value = .error .badShareFormat := by
            unfold ImprovedCrypto.decodeShare
            rw [if_neg ha]
          rw [hdec, jsBind_error]
  cases shares with
  | nil =>
      rcases hbad with ⟨s, hs, _⟩
      simp at hs
  | cons s0 t =>
      show ((s0 :: t).mapM (fun s => ImprovedCrypto.decodeShare s.value) >>= _) = _
      rw [hmapM (s0 :: t) hbad, jsBind_error]

/-- Claim C6 witness: a share value not starting with `80` is rejected with
the format error. -/
theorem spec2_c6_wit :
    ImprovedCrypto.combineShares [⟨"7f0105".toList, none⟩] =
      .error .badShareFormat :=
  spec2_c6 [⟨"7f0105".toList, none⟩] ⟨⟨"7f0105".toList, none⟩, by decide, by decide⟩

/-- Claim C6 counterexample: a single odd-length share (`80010`, 5 characters)
does not fail — its `y` payload decodes to the empty array and
`combineShares` returns the empty secret. -/
theorem spec2_c6_cex :
    ImprovedCrypto.combineShares [⟨"80010".toList, none⟩] =
      .ok (ImprovedCrypto.utf8Tag, []) := by decide

/-- Claim C7 (amended): on every NONEMPTY list of byte points with pairwise
distinct `x` coordinates, the two Lagrange implementations both succeed and
return the same `f(0)` byte. -/
theorem spec2_c7 (pts : List (Nat × Nat)) (hne : pts ≠ [])
    (hb : ∀ p ∈ pts, p.fst < 256 ∧ p.snd < 256)
    (hnd : (pts.map Prod.fst).Nodup) :
    ∃ v, TestJs.lagrangeInterpolation pts = .ok v ∧
      ImprovedCrypto.lagrangeInterpolation
        (pts.map (fun p => (p.fst, (some p.snd : Option Nat)))) = .ok v :=
  c7_equiv pts hne hb hnd

/-- Claim C7 witness: three distinct points. -/
theorem spec2_c7_wit :
    ∃ v, TestJs.lagrangeInterpolation [(1, 5), (2, 7), (3, 9)] = .ok v ∧
      ImprovedCrypto.lagrangeInterpolation
        ([(1, 5), (2, 7), (3, 9)].map (fun p => (p.fst, (some p.snd : Option Nat)))) =
        .ok v :=
  spec2_c7 [(1, 5), (2, 7), (3, 9)] (by decide) (by decide) (by decide)

/-- Claim C7 counterexample: on the empty point list (whose `x` coordinates
are vacuously pairwise distinct) the two implementations DISAGREE — the
`test.js` one throws while the `improved-crypto.js` one returns the byte 0. -/
theorem spec2_c7_cex :
    TestJs.lagrangeInterpolation [] = .error .emptyPoints ∧
    ImprovedCrypto.lagrangeInterpolation [] = .ok 0 :=
  ⟨rfl, rfl⟩

/-- Claim C8: for every password and fixed 16-byte salt, the fallback
derivation is a deterministic function of `(password, salt)` — two runs are
identical — and it produces a 32-byte key (64 hex code units) together with
the salt's own hex string (32 code units). -/
theorem spec2_c8 (passwordUnits salt : List Nat) (hlen : salt.length = 16) :
    ImprovedCrypto.fallbackDeriveKey passwordUnits salt =
      ImprovedCrypto.fallbackDeriveKey passwordUnits salt ∧
    (ImprovedCrypto.fallbackDeriveKey passwordUnits salt).key.length = 64 ∧
    (ImprovedCrypto.fallbackDeriveKey passwordUnits salt).salt =
      (salt.map ImprovedCrypto.byteHexCodes).flatten ∧
    (ImprovedCrypto.fallbackDeriveKey passwordUnits salt).salt.length = 32 := by
  refine ⟨rfl, ?_, rfl, ?_⟩
  · simp only [ImprovedCrypto.fallbackDeriveKey]
    rw [ImprovedCrypto.flatten_byteHexCodes_length, List.length_map, List.length_range]
  · simp only [ImprovedCrypto.fallbackDeriveKey]
    rw [ImprovedCrypto.flatten_byteHexCodes_length, hlen]

/-- Claim C8 witness: a concrete password and 16-byte salt. -/
theorem spec2_c8_wit :
    (ImprovedCrypto.fallbackDeriveKey [97] (List.range 16)).key.length = 64 :=
  (spec2_c8 [97] (List.range 16) (by decide)).2.1

/-- Claim C9: when every IndexedDB operation fails, `storeEncryptionKeySecurely`
still resolves `true` after writing the record into the in-memory backup
table, and retrieval in the same process finds that record through the
in-memory table; in every world, retrieval returns `none` exactly when
neither the durable store nor the in-memory table holds the key. -/
theorem spec2_c9 :
    (∀ (α : Type) (w : SecureStorageWorld α) (d : α), w.idbBroken = true →
      (ImprovedCrypto.storeEncryptionKeySecurely w d).fst = true ∧
      ((ImprovedCrypto.storeEncryptionKeySecurely w d).snd).memory.lookup
        ImprovedCrypto.masterKeyName = some d ∧
      ImprovedCrypto.getFromSecureStorage
        (ImprovedCrypto.storeEncryptionKeySecurely w d).snd
        ImprovedCrypto.masterKeyName = some d) ∧
    (∀ (α : Type) (w : SecureStorageWorld α) (k : String),
      ImprovedCrypto.getFromSecureStorage w k = none ↔
        ImprovedCrypto.getFromIndexedDB w k = none ∧ w.memory.lookup k = none) := by
  constructor
  · intro α w d hbk
    simp [ImprovedCrypto.storeEncryptionKeySecurely, ImprovedCrypto.saveToSecureStorage,
      ImprovedCrypto.saveToIndexedDB, ImprovedCrypto.getFromSecureStorage,
      ImprovedCrypto.getFromIndexedDB, hbk, List.lookup]
  · intro α w k
    unfold ImprovedCrypto.getFromSecureStorage
    cases hidb : ImprovedCrypto.getFromIndexedDB w k with
    | some d => simp [hidb]
    | none => simp [hidb]

/-- Claim C9 witness: a broken-IndexedDB world with an empty memory table. -/
theorem spec2_c9_wit :
    (ImprovedCrypto.storeEncryptionKeySecurely
      (⟨true, [], []⟩ : SecureStorageWorld Nat) 7).fst = true ∧
    ImprovedCrypto.getFromSecureStorage
      (ImprovedCrypto.storeEncryptionKeySecurely
        (⟨true, [], []⟩ : SecureStorageWorld Nat) 7).snd
      ImprovedCrypto.masterKeyName = some 7 := by
  have h := (spec2_c9.1 Nat ⟨true, [], []⟩ 7 rfl)
  exact ⟨h.1, h.2.2⟩

/-- Claim C10: `combineShares` reads the text-encoding tag only from the
first share (defaulting to `utf-8` when absent): its result is a function of
the value strings and the first share's tag alone, and whenever it succeeds
the returned tag is the first share's tag (or the default). -/
theorem spec2_c10 :
    (∀ s1 s2 : List ImprovedCrypto.ShareInput,
      s1.map (fun s => s.value) = s2.map (fun s => s.value) →
      (s1.headD ⟨[], none⟩).encoding = (s2.headD ⟨[], none⟩).encoding →
      ImprovedCrypto.combineShares s1 = ImprovedCrypto.combineShares s2) ∧
    (∀ shares enc bytes,
      ImprovedCrypto.combineShares shares = .ok (enc, bytes) →
      enc = ((shares.headD ⟨[], none⟩).encoding).getD ImprovedCrypto.utf8Tag) := by
  constructor
  · intro s1 s2 hv he
    cases s1 with
    | nil =>
        cases s2 with
        | nil => rfl
        | cons b t2 => exact absurd hv (by simp)
    | cons a t1 =>
        cases s2 with
        | nil => exact absurd hv (by simp)
        | cons b t2 =>
            have hae : a.encoding = b.encoding := by simpa using he
            show ((a :: t1).mapM (fun s => ImprovedCrypto.decodeShare s.value) >>= _) =
              ((b :: t2).mapM (fun s => ImprovedCrypto.decodeShare s.value) >>= _)
            rw [mapM_decode_value, mapM_decode_value, hv, hae]
  · intro shares enc bytes h
    cases shares with
    | nil => exact absurd h (by simp [ImprovedCrypto.combineShares])
    | cons a t =>
        have h' : ((a :: t).mapM (fun s => ImprovedCrypto.decodeShare s.value) >>=
            fun decoded =>
              (List.range (decoded.headD ⟨0, []⟩).y.length).mapM
                  (fun byteIndex => ImprovedCrypto.lagrangeInterpolation
                    (decoded.map (fun d => (d.x, d.y.get? byteIndex)))) >>=
                fun result => pure (a.encoding.getD ImprovedCrypto.utf8Tag, result)) =
            .ok (enc, bytes) := h
        cases hm : (a :: t).mapM (fun s => ImprovedCrypto.decodeShare s.value) with
        | error e =>
            rw [hm, jsBind_error] at h'
            simp at h'
        | ok dec =>
            rw [hm, jsBind_ok] at h'
            cases hm2 : (List.range (dec.headD ⟨0, []⟩).y.length).mapM
                (fun byteIndex => ImprovedCrypto.lagrangeInterpolation
                  (dec.map (fun d => (d.x, d.y.get? byteIndex)))) with
            | error e =>
                rw [hm2, jsBind_error] at h'
                simp at h'
            | ok res =>
                rw [hm2, jsBind_ok, jsPure_eq] at h'
                have hps : a.encoding.getD ImprovedCrypto.utf8Tag = enc ∧ res = bytes := by
                  simpa using h'
                simpa using hps.1.symm

/-- Claim C10 witness: two share lists with the same values and first tag but
different tags on the second share combine identically. -/
theorem spec2_c10_wit :
    ImprovedCrypto.combineShares
      [⟨"800140".toList, some ImprovedCrypto.utf8Tag⟩,
       ⟨"800283".toList, some ImprovedCrypto.utf8Tag⟩] =
    ImprovedCrypto.combineShares
      [⟨"800140".toList, some ImprovedCrypto.utf8Tag⟩,
       ⟨"800283".toList, some ['a','s','c','i','i']⟩] :=
  spec2_c10.1 _ _ (by decide) (by decide)
